import Mathlib

/-!
Verification of the librustzcash cryptographic core against its
natural-language specification.

The development shallowly embeds two subsystems:

* the Sapling in-band note-encryption pipeline of
  `zcash_primitives/src/note_encryption.rs`, and
* the BLS12-381 pairing scaffolding of `pairing/src/bls12_381/mod.rs`
  (G2 preparation, the multi-Miller loop, the final exponentiation and the
  Gt wrapper).

Bytes are modelled as natural numbers and byte strings as `List ℕ`.
Code of the repository that is not part of the provided sources (the Jubjub
curve, the BLAKE2b hashes, the ChaCha20-Poly1305 AEAD, the tower fields) is
modelled from the specification: each such definition carries a doc comment
starting with `Modelled from the spec:` and is either kept abstract, as a
parameter packaged with exactly the laws the specification assigns to it, or
given the algebraic semantics the specification describes.
-/

namespace Spec2Proof

/-! ## Byte-string helpers (little-endian integers, as used via `byteorder`) -/

/-- Little-endian byte encoding with a fixed width: `leBytes k n` is the list
of the `k` low bytes of `n`, least significant first.  This is the encoding
`write_u64::<LittleEndian>` uses for `k = 8` and the canonical 32-byte
little-endian scalar encoding for `k = 32`. -/
def leBytes : ℕ → ℕ → List ℕ
  | 0, _ => []
  | k + 1, n => (n % 256) :: leBytes k (n / 256)

/-- Little-endian read of up to eight bytes, the embedding of
`read_u64::<LittleEndian>` applied to an 8-byte slice. -/
def readU64LE (l : List ℕ) : ℕ :=
  (l.take 8).foldr (fun b acc => b + 256 * acc) 0

/-! ## Memo (`note_encryption.rs`, `Memo`) -/

/-- The default memo: a 512-byte zero array whose first byte is set to `0xF6`,
the ZIP-302 empty-memo indication (`impl Default for Memo`). -/
def memoDefault : List ℕ := (List.replicate 512 0).set 0 0xF6

/-- Embedding of `Memo::from_bytes`: the empty slice yields the default memo,
a slice of at most 512 bytes is right-padded with zeroes, and a longer slice
is rejected. -/
def memoFromBytes (memo : List ℕ) : Option (List ℕ) :=
  if memo.isEmpty then some memoDefault
  else if memo.length ≤ 512 then some (memo ++ List.replicate (512 - memo.length) 0)
  else none

/-! ## Consensus parameters and the plaintext version policy -/

/-- Modelled from the spec: the `consensus::Parameters` capability
(`is_nu_active(Canopy, height)` and `activation_height(Canopy)`) together
with the `ZIP212_GRACE_PERIOD` constant of the missing `consensus.rs`.  The
activation height is carried as a plain natural number because
`plaintext_version_is_valid` unconditionally `expect`s it whenever Canopy is
active. -/
structure ConsensusParams where
  canopyActive : ℕ → Bool
  canopyActivationHeight : ℕ
  zip212GracePeriod : ℕ

/-- Embedding of `plaintext_version_is_valid`. -/
def plaintextVersionIsValid (P : ConsensusParams) (height leadbyte : ℕ) : Bool :=
  if P.canopyActive height then
    let gracePeriodEndHeight := P.canopyActivationHeight + P.zip212GracePeriod
    if height < gracePeriodEndHeight && !(leadbyte == 1) && !(leadbyte == 2) then
      false
    else if gracePeriodEndHeight ≤ height && !(leadbyte == 2) then
      false
    else
      true
  else
    leadbyte == 1

/-! ## The Sapling note-encryption pipeline

The pipeline of `note_encryption.rs` is written against external
collaborators that are not part of the provided sources: the Jubjub curve
(`jubjub` module), the note/payment-address primitives (`primitives.rs`),
the BLAKE2b hashes and the ChaCha20-Poly1305 AEAD.  They are modelled from
the spec as the parameters of `SaplingModel` below, packaged with exactly
the laws §4.J–§4.L of the specification assigns to them.  The pipeline
functions themselves are translated from `note_encryption.rs` over an
arbitrary such model. -/

/-- Embedding of the `Rseed` enum of `primitives.rs` (per the data model of
the spec): `rcm` before ZIP 212, a raw 32-byte seed after. -/
inductive RseedT (Scalar : Type) where
  | BeforeZip212 (rcm : Scalar)
  | AfterZip212 (rseed : List ℕ)

/-- Embedding of the Sapling `Note` of `primitives.rs` (per the data model of
the spec): value, diversified base `g_d`, recipient key `pk_d` and `rseed`. -/
structure NoteT (Scalar Point : Type) where
  value : ℕ
  g_d : Point
  pk_d : Point
  rseed : RseedT Scalar

/-- Embedding of `PaymentAddress` (per the data model of the spec):
an 11-byte diversifier together with `pk_d`. -/
structure PaymentAddressT (Point : Type) where
  diversifier : List ℕ
  pk_d : Point

/-- Modelled from the spec: the primitives the note-encryption pipeline
consumes but whose code is not among the provided sources.

* `Scalar` is the Jubjub scalar field `Fs`, `Point` the prime-order Jubjub
  points, `PointU` points of unknown order (used only for `cv`), `FrT` the
  BLS12-381 scalar field (used only for `cmu`), `Key` the 32-byte symmetric
  keys produced by BLAKE2b.
* `smul`/`mulByCofactor` are Jubjub scalar multiplication and the mandatory
  multiplication by the cofactor 8; the two laws (`smul` commutes with
  itself and with the cofactor map) hold because both are scalar
  multiplications on an abelian group.
* `aeadSeal`/`aeadOpen` are ChaCha20-Poly1305 with the fixed zero nonce and
  empty associated data; `seal` appends a 16-byte tag, `open` inverts
  `seal` and is deterministic, so a ciphertext that opens is the seal of
  its plaintext.
* `chachaXor1` is raw ChaCha20 at block counter 1, which by §4.K agrees
  with the AEAD keystream on the body of a sealed ciphertext.
* `scalarToRepr`/`scalarFromRepr` are the canonical 32-byte little-endian
  scalar encoding and its (rejecting) decoder; `pointToBytes` /
  `pointFromBytesPrime` are the 32-byte point encoding, its decoder chained
  with `as_prime_order`.
* `gd` maps an 11-byte diversifier to its diversified base (may fail),
  `fromParts` is `PaymentAddress::from_parts`, `cm` the note commitment,
  `prfEsk` the ZIP-212 derivation of `esk` from `rseed`, and `kdfSapling` /
  `prfOck` the BLAKE2b-256 KDF and PRF (deterministic, so plain
  functions). -/
structure SaplingModel (Scalar Point PointU FrT Key : Type) where
  smul : Scalar → Point → Point
  mulByCofactor : Point → Point
  kdfSapling : Point → Point → Key
  prfOck : List ℕ → PointU → FrT → Point → Key
  aeadSeal : Key → List ℕ → List ℕ
  aeadOpen : Key → List ℕ → Option (List ℕ)
  chachaXor1 : Key → List ℕ → List ℕ
  scalarToRepr : Scalar → List ℕ
  scalarFromRepr : List ℕ → Option Scalar
  pointToBytes : Point → List ℕ
  pointFromBytesPrime : List ℕ → Option Point
  gd : List ℕ → Option Point
  fromParts : List ℕ → Point → Option (PaymentAddressT Point)
  cm : NoteT Scalar Point → FrT
  prfEsk : List ℕ → Scalar
  smul_comm : ∀ a b p, smul a (smul b p) = smul b (smul a p)
  mulByCofactor_smul : ∀ a p, mulByCofactor (smul a p) = smul a (mulByCofactor p)
  aead_open_seal : ∀ k m, aeadOpen k (aeadSeal k m) = some m
  aead_seal_length : ∀ k m, (aeadSeal k m).length = m.length + 16
  aead_seal_of_open : ∀ k c m, aeadOpen k c = some m → aeadSeal k m = c
  chachaXor1_seal_take : ∀ k m n, n ≤ m.length →
    chachaXor1 k ((aeadSeal k m).take n) = m.take n
  scalarFromRepr_toRepr : ∀ s, scalarFromRepr (scalarToRepr s) = some s
  scalarToRepr_length : ∀ s, (scalarToRepr s).length = 32
  pointFromBytes_toBytes : ∀ p, pointFromBytesPrime (pointToBytes p) = some p
  pointToBytes_length : ∀ p, (pointToBytes p).length = 32
  fromParts_eq : ∀ d p pa, fromParts d p = some pa → pa = ⟨d, p⟩

section Pipeline

variable {Scalar Point PointU FrT Key : Type}
variable [DecidableEq Scalar] [DecidableEq Point] [DecidableEq FrT]

/-- Embedding of `sapling_ka_agree`: multiply by the cofactor, then by the
scalar. -/
def saplingKaAgree (M : SaplingModel Scalar Point PointU FrT Key)
    (esk : Scalar) (pk_d : Point) : Point :=
  M.smul esk (M.mulByCofactor pk_d)

/-- Modelled from the spec: `Note::generate_or_derive_esk` of the missing
`primitives.rs` — pre-ZIP-212 notes use a fresh random scalar (passed here
as `eskRand`), ZIP-212 notes derive `esk` from `rseed`. -/
def generateOrDeriveEsk (M : SaplingModel Scalar Point PointU FrT Key)
    (rseed : RseedT Scalar) (eskRand : Scalar) : Scalar :=
  match rseed with
  | .BeforeZip212 _ => eskRand
  | .AfterZip212 rs => M.prfEsk rs

/-- Modelled from the spec: `Note::derive_esk` of the missing
`primitives.rs` — defined exactly for ZIP-212 notes. -/
def deriveEsk (M : SaplingModel Scalar Point PointU FrT Key)
    (rseed : RseedT Scalar) : Option Scalar :=
  match rseed with
  | .BeforeZip212 _ => none
  | .AfterZip212 rs => some (M.prfEsk rs)

/-- Modelled from the spec: `PaymentAddress::create_note` of the missing
`primitives.rs` — recompute `g_d` from the diversifier (may fail) and
assemble the note. -/
def createNote (M : SaplingModel Scalar Point PointU FrT Key)
    (toAddr : PaymentAddressT Point) (value : ℕ) (rseed : RseedT Scalar) :
    Option (NoteT Scalar Point) :=
  (M.gd toAddr.diversifier).map fun g => ⟨value, g, toAddr.pk_d, rseed⟩

/-- The note-plaintext lead byte (`encrypt_note_plaintext`, the `match` on
`self.note.rseed`). -/
def leadByte (rseed : RseedT Scalar) : ℕ :=
  match rseed with
  | .BeforeZip212 _ => 1
  | .AfterZip212 _ => 2

/-- The 32 `rcm`/`rseed` bytes of the note plaintext. -/
def rseedBytes (M : SaplingModel Scalar Point PointU FrT Key)
    (rseed : RseedT Scalar) : List ℕ :=
  match rseed with
  | .BeforeZip212 rcm => M.scalarToRepr rcm
  | .AfterZip212 rs => rs

/-- Embedding of the `SaplingNoteEncryption` context. -/
structure SNE (Scalar Point : Type) where
  epk : Point
  esk : Scalar
  note : NoteT Scalar Point
  toAddr : PaymentAddressT Point
  memo : List ℕ
  ovk : List ℕ

/-- Embedding of `SaplingNoteEncryption::new`: derive (or draw) `esk` and
set `epk = esk·g_d`. -/
def SNE.new (M : SaplingModel Scalar Point PointU FrT Key) (ovk : List ℕ)
    (note : NoteT Scalar Point) (toAddr : PaymentAddressT Point) (memo : List ℕ)
    (eskRand : Scalar) : SNE Scalar Point :=
  let esk := generateOrDeriveEsk M note.rseed eskRand
  let epk := M.smul esk note.g_d
  ⟨epk, esk, note, toAddr, memo, ovk⟩

/-- Embedding of `SaplingNoteEncryption::encrypt_note_plaintext`: build the
564-byte note plaintext (version ‖ diversifier ‖ value LE ‖ rcm-or-rseed ‖
memo) and seal it under the KDF key. -/
def encryptNotePlaintext (M : SaplingModel Scalar Point PointU FrT Key)
    (s : SNE Scalar Point) : List ℕ :=
  let shared_secret := saplingKaAgree M s.esk s.toAddr.pk_d
  let key := M.kdfSapling shared_secret s.epk
  let input := leadByte s.note.rseed :: (s.toAddr.diversifier ++
    (leBytes 8 s.note.value ++ (rseedBytes M s.note.rseed ++ s.memo)))
  M.aeadSeal key input

/-- Embedding of `SaplingNoteEncryption::encrypt_outgoing_plaintext`: seal
`pk_d ‖ esk` under `prf_ock`. -/
def encryptOutgoingPlaintext (M : SaplingModel Scalar Point PointU FrT Key)
    (s : SNE Scalar Point) (cv : PointU) (cmu : FrT) : List ℕ :=
  let key := M.prfOck s.ovk cv cmu s.epk
  let input := M.pointToBytes s.note.pk_d ++ M.scalarToRepr s.esk
  M.aeadSeal key input

/-- Embedding of `parse_note_plaintext_without_memo`: version check, parse
the compact fields, recompute the note through `ivk`, and verify the
commitment and (for ZIP-212 notes) the derived `esk`. -/
def parseNotePlaintextWithoutMemo (M : SaplingModel Scalar Point PointU FrT Key)
    (P : ConsensusParams) (height : ℕ) (ivk : Scalar) (epk : Point) (cmu : FrT)
    (plaintext : List ℕ) :
    Option (NoteT Scalar Point × PaymentAddressT Point) :=
  if plaintextVersionIsValid P height (plaintext.getD 0 0) then
    let d := (plaintext.drop 1).take 11
    let v := readU64LE (plaintext.drop 12)
    let r := (plaintext.drop 20).take 32
    (if plaintext.getD 0 0 = 1 then
        (M.scalarFromRepr r).map RseedT.BeforeZip212
      else
        some (RseedT.AfterZip212 r)).bind fun rseed =>
    (M.gd d).bind fun gdPoint =>
    let pk_d := M.smul ivk gdPoint
    (M.fromParts d pk_d).bind fun toAddr =>
    (createNote M toAddr v rseed).bind fun note =>
    if M.cm note ≠ cmu then
      none
    else
      match deriveEsk M note.rseed with
      | some derived_esk =>
        if M.smul derived_esk note.g_d ≠ epk then none else some (note, toAddr)
      | none => some (note, toAddr)
  else
    none

/-- Constant `COMPACT_NOTE_SIZE`. -/
def COMPACT_NOTE_SIZE : ℕ := 1 + 11 + 8 + 32

/-- Constant `NOTE_PLAINTEXT_SIZE`. -/
def NOTE_PLAINTEXT_SIZE : ℕ := COMPACT_NOTE_SIZE + 512

/-- Constant `OUT_PLAINTEXT_SIZE`. -/
def OUT_PLAINTEXT_SIZE : ℕ := 32 + 32

/-- Constant `ENC_CIPHERTEXT_SIZE`. -/
def ENC_CIPHERTEXT_SIZE : ℕ := NOTE_PLAINTEXT_SIZE + 16

/-- Constant `OUT_CIPHERTEXT_SIZE`. -/
def OUT_CIPHERTEXT_SIZE : ℕ := OUT_PLAINTEXT_SIZE + 16

/-- Embedding of `try_sapling_note_decryption`.  The length assertion of the
source is embedded as a guard. -/
def trySaplingNoteDecryption (M : SaplingModel Scalar Point PointU FrT Key)
    (P : ConsensusParams) (height : ℕ) (ivk : Scalar) (epk : Point) (cmu : FrT)
    (enc_ciphertext : List ℕ) :
    Option (NoteT Scalar Point × PaymentAddressT Point × List ℕ) :=
  if enc_ciphertext.length = ENC_CIPHERTEXT_SIZE then
    let shared_secret := saplingKaAgree M ivk epk
    let key := M.kdfSapling shared_secret epk
    (M.aeadOpen key enc_ciphertext).bind fun plaintext =>
    (parseNotePlaintextWithoutMemo M P height ivk epk cmu plaintext).bind
      fun nt =>
    let memo := (plaintext.drop COMPACT_NOTE_SIZE).take 512
    some (nt.1, nt.2, memo)
  else
    none

/-- Embedding of `try_sapling_compact_note_decryption`: raw ChaCha20 at
block counter 1 over the 52-byte prefix, then the shared parse. -/
def trySaplingCompactNoteDecryption
    (M : SaplingModel Scalar Point PointU FrT Key)
    (P : ConsensusParams) (height : ℕ) (ivk : Scalar) (epk : Point) (cmu : FrT)
    (enc_ciphertext : List ℕ) :
    Option (NoteT Scalar Point × PaymentAddressT Point) :=
  if enc_ciphertext.length = COMPACT_NOTE_SIZE then
    let shared_secret := saplingKaAgree M ivk epk
    let key := M.kdfSapling shared_secret epk
    let plaintext := M.chachaXor1 key enc_ciphertext
    parseNotePlaintextWithoutMemo M P height ivk epk cmu plaintext
  else
    none

/-- Embedding of `try_sapling_output_recovery_with_ock`: open the out
ciphertext, recover `pk_d` and `esk`, re-derive the note key, open the note
ciphertext and re-validate everything. -/
def trySaplingOutputRecoveryWithOck
    (M : SaplingModel Scalar Point PointU FrT Key)
    (P : ConsensusParams) (height : ℕ) (ock : Key) (cmu : FrT) (epk : Point)
    (enc_ciphertext out_ciphertext : List ℕ) :
    Option (NoteT Scalar Point × PaymentAddressT Point × List ℕ) :=
  if enc_ciphertext.length = ENC_CIPHERTEXT_SIZE ∧
      out_ciphertext.length = OUT_CIPHERTEXT_SIZE then
    (M.aeadOpen ock out_ciphertext).bind fun op =>
    (M.pointFromBytesPrime (op.take 32)).bind fun pk_d =>
    (M.scalarFromRepr ((op.drop 32).take 32)).bind fun esk =>
    let shared_secret := saplingKaAgree M esk pk_d
    let key := M.kdfSapling shared_secret epk
    (M.aeadOpen key enc_ciphertext).bind fun plaintext =>
    if plaintextVersionIsValid P height (plaintext.getD 0 0) then
      let d := (plaintext.drop 1).take 11
      let v := readU64LE (plaintext.drop 12)
      let r := (plaintext.drop 20).take 32
      (if plaintext.getD 0 0 = 1 then
          (M.scalarFromRepr r).map RseedT.BeforeZip212
        else
          some (RseedT.AfterZip212 r)).bind fun rseed =>
      let memo := (plaintext.drop COMPACT_NOTE_SIZE).take 512
      (M.gd d).bind fun gdPoint =>
      if M.smul esk gdPoint ≠ epk then
        none
      else
        (M.fromParts d pk_d).bind fun toAddr =>
        (createNote M toAddr v rseed).bind fun note =>
        if M.cm note ≠ cmu then
          none
        else
          match deriveEsk M note.rseed with
          | some derived_esk =>
            if derived_esk ≠ esk then none else some (note, toAddr, memo)
          | none => some (note, toAddr, memo)
    else
      none
  else
    none

/-- Embedding of `try_sapling_output_recovery`: compute `ock` with
`prf_ock` and delegate. -/
def trySaplingOutputRecovery (M : SaplingModel Scalar Point PointU FrT Key)
    (P : ConsensusParams) (height : ℕ) (ovk : List ℕ) (cv : PointU) (cmu : FrT)
    (epk : Point) (enc_ciphertext out_ciphertext : List ℕ) :
    Option (NoteT Scalar Point × PaymentAddressT Point × List ℕ) :=
  trySaplingOutputRecoveryWithOck M P height (M.prfOck ovk cv cmu epk) cmu epk
    enc_ciphertext out_ciphertext

end Pipeline

/-! ## BLS12-381 pairing scaffolding (`pairing/src/bls12_381/mod.rs`)

The tower fields (`fq.rs`, `fq2.rs`, `fq6.rs`, `fq12.rs`) and the curve
groups (`ec.rs`) are not among the provided sources; only `mod.rs` is.  The
coefficient bookkeeping of `G2Prepared::from_affine` and
`multi_miller_loop` is translated from `mod.rs` over abstract `Fq`/`Fq2`/
`Fq12` operation records; the final exponentiation and the `Gt` wrapper are
translated over the multiplicative-group semantics of `Fq12` the spec
describes. -/

/-- The BLS parameter: `|x|` for `x = -0xd201_0000_0001_0000` (`BLS_X`). -/
def BLS_X : ℕ := 0xd201000000010000

/-- The 64 bits of `BLS_X >> 1`, most significant first: the iteration
schedule of `BitIterator::<u64, _>::new([BLS_X >> 1])`. -/
def blsXHalfBits : List Bool :=
  (List.range 64).map fun i => Nat.testBit (BLS_X >>> 1) (63 - i)

/-- An element of `Fq2`, two `Fq` coordinates. -/
structure Fq2T (Fq : Type) where
  c0 : Fq
  c1 : Fq

/-- Modelled from the spec: the `Fq2` arithmetic of the missing `fq2.rs`,
kept abstract — the coefficient bookkeeping of `G2Prepared` does not depend
on it.  `one` is the `z`-coordinate the affine-to-projective conversion
(`q.into()`) uses. -/
structure Fq2Ops (Fq : Type) where
  add : Fq2T Fq → Fq2T Fq → Fq2T Fq
  sub : Fq2T Fq → Fq2T Fq → Fq2T Fq
  mul : Fq2T Fq → Fq2T Fq → Fq2T Fq
  square : Fq2T Fq → Fq2T Fq
  double : Fq2T Fq → Fq2T Fq
  neg : Fq2T Fq → Fq2T Fq
  one : Fq2T Fq

/-- A `G1Affine` point: two `Fq` coordinates and an infinity flag. -/
structure G1AffT (Fq : Type) where
  x : Fq
  y : Fq
  infinity : Bool

/-- A `G2Affine` point: two `Fq2` coordinates and an infinity flag. -/
structure G2AffT (Fq : Type) where
  x : Fq2T Fq
  y : Fq2T Fq
  infinity : Bool

/-- A projective `G2` point. -/
structure G2ProjT (Fq : Type) where
  x : Fq2T Fq
  y : Fq2T Fq
  z : Fq2T Fq

/-- A line-function coefficient triple. -/
def CoeffT (Fq : Type) : Type := Fq2T Fq × Fq2T Fq × Fq2T Fq

/-- Embedding of `G2Prepared`. -/
structure G2PreparedT (Fq : Type) where
  coeffs : List (CoeffT Fq)
  infinity : Bool

/-- Embedding of `doubling_step` (Algorithm 26 of eprint 2010/354): returns
the updated running point and the pushed coefficient triple. -/
def doublingStep {Fq : Type} (O : Fq2Ops Fq) (r : G2ProjT Fq) :
    G2ProjT Fq × CoeffT Fq :=
  let tmp0 := O.square r.x
  let tmp1 := O.square r.y
  let tmp2 := O.square tmp1
  let tmp3 := O.double (O.sub (O.sub (O.square (O.add tmp1 r.x)) tmp0) tmp2)
  let tmp4 := O.add (O.double tmp0) tmp0
  let tmp6 := O.add r.x tmp4
  let tmp5 := O.square tmp4
  let zsquared := O.square r.z
  let rx := O.sub (O.sub tmp5 tmp3) tmp3
  let rz := O.sub (O.sub (O.square (O.add r.z r.y)) tmp1) zsquared
  let ry := O.sub (O.mul (O.sub tmp3 rx) tmp4)
    (O.double (O.double (O.double tmp2)))
  let tmp3 := O.neg (O.double (O.mul tmp4 zsquared))
  let tmp6 := O.sub (O.sub (O.sub (O.square tmp6) tmp0) tmp5)
    (O.double (O.double tmp1))
  let tmp0 := O.double (O.mul rz zsquared)
  (⟨rx, ry, rz⟩, (tmp0, tmp3, tmp6))

/-- Embedding of `addition_step` (Algorithm 27 of eprint 2010/354). -/
def additionStep {Fq : Type} (O : Fq2Ops Fq) (r : G2ProjT Fq)
    (q : G2AffT Fq) : G2ProjT Fq × CoeffT Fq :=
  let zsquared := O.square r.z
  let ysquared := O.square q.y
  let t0 := O.mul zsquared q.x
  let t1 := O.mul (O.sub (O.sub (O.square (O.add q.y r.z)) ysquared) zsquared)
    zsquared
  let t2 := O.sub t0 r.x
  let t3 := O.square t2
  let t4 := O.double (O.double t3)
  let t5 := O.mul t4 t2
  let t6 := O.sub (O.sub t1 r.y) r.y
  let t9 := O.mul t6 q.x
  let t7 := O.mul t4 r.x
  let rx := O.sub (O.sub (O.sub (O.square t6) t5) t7) t7
  let rz := O.sub (O.sub (O.square (O.add r.z t2)) zsquared) t3
  let t10 := O.add q.y rz
  let t8 := O.mul (O.sub t7 rx) t6
  let t0 := O.double (O.mul r.y t5)
  let ry := O.sub t8 t0
  let t10 := O.sub (O.sub (O.square t10) ysquared) (O.square rz)
  let t9 := O.sub (O.double t9) t10
  let t10 := O.double rz
  let t6 := O.neg t6
  let t1 := O.double t6
  (⟨rx, ry, rz⟩, (t10, t1, t9))

/-- One iteration of the bit loop of `G2Prepared::from_affine`: skip bits
until the first set one, then push a doubling step per bit and an extra
addition step per set bit. -/
def fromAffineStep {Fq : Type} (O : Fq2Ops Fq) (q : G2AffT Fq)
    (st : Bool × List (CoeffT Fq) × G2ProjT Fq) (i : Bool) :
    Bool × List (CoeffT Fq) × G2ProjT Fq :=
  let found_one := st.1
  let coeffs := st.2.1
  let r := st.2.2
  if !found_one then
    (i, coeffs, r)
  else
    let (r, c) := doublingStep O r
    if i then
      let (r, c2) := additionStep O r q
      (true, coeffs ++ [c, c2], r)
    else
      (true, coeffs ++ [c], r)

/-- Embedding of `G2Prepared::from_affine`. -/
def g2PreparedFromAffine {Fq : Type} (O : Fq2Ops Fq) (q : G2AffT Fq) :
    G2PreparedT Fq :=
  if q.infinity then
    ⟨[], true⟩
  else
    let r : G2ProjT Fq := ⟨q.x, q.y, O.one⟩
    let st := blsXHalfBits.foldl (fromAffineStep O q) (false, [], r)
    let rc := doublingStep O st.2.2
    ⟨st.2.1 ++ [rc.2], false⟩

/-- Modelled from the spec: the `Fq12` interface the Miller loop uses, over
an abstract carrier `G` — the unit, squaring, conjugation, the sparse
multiplication `mul_by_014` and the `Fq` multiplication used to scale line
coefficients by the `G1` coordinates. -/
structure Fq12Ops (Fq G : Type) where
  one : G
  square : G → G
  conjugate : G → G
  mulBy014 : G → Fq2T Fq → Fq2T Fq → Fq2T Fq → G
  fqMul : Fq → Fq → Fq

/-- Embedding of the in-loop `ell`: scale `c0` componentwise by `p.y` and
`c1` componentwise by `p.x`, then `f.mul_by_014(c2, c1, c0)`. -/
def ell {Fq G : Type} (X : Fq12Ops Fq G) (f : G) (coeffs : CoeffT Fq)
    (p : G1AffT Fq) : G :=
  let c0 : Fq2T Fq := ⟨X.fqMul coeffs.1.c0 p.y, X.fqMul coeffs.1.c1 p.y⟩
  let c1 : Fq2T Fq := ⟨X.fqMul coeffs.2.1.c0 p.x, X.fqMul coeffs.2.1.c1 p.x⟩
  X.mulBy014 f coeffs.2.2 c1 c0

/-- One sweep of `coeffs.next().unwrap()` over every retained pair: the
`unwrap` of the source is embedded as failure (`none`) when an iterator is
exhausted.  Returns the updated accumulator and the advanced iterators. -/
def consumeStep {Fq G : Type} (X : Fq12Ops Fq G) :
    G → List (G1AffT Fq × List (CoeffT Fq)) →
    Option (G × List (G1AffT Fq × List (CoeffT Fq)))
  | f, [] => some (f, [])
  | f, (p, cs) :: rest =>
    match cs with
    | [] => none
    | c :: cs =>
      (consumeStep X (ell X f c p) rest).map fun fr => (fr.1, (p, cs) :: fr.2)

/-- One iteration of the bit loop of `multi_miller_loop`. -/
def millerStep {Fq G : Type} (X : Fq12Ops Fq G)
    (st : Option (Bool × G × List (G1AffT Fq × List (CoeffT Fq))))
    (i : Bool) : Option (Bool × G × List (G1AffT Fq × List (CoeffT Fq))) :=
  st.bind fun st =>
  let found_one := st.1
  let f := st.2.1
  let pairs := st.2.2
  if !found_one then
    some (i, f, pairs)
  else
    (consumeStep X f pairs).bind fun fp =>
    (if i then consumeStep X fp.1 fp.2 else some fp).bind fun fp =>
    some (true, X.square fp.1, fp.2)

/-- Embedding of `Bls12::multi_miller_loop`: retain the non-identity terms,
walk the bits of `BLS_X >> 1`, apply one final coefficient per term, and
conjugate (because `x` is negative).  Alongside the accumulator the final
state of every per-term coefficient iterator is returned, so that the
consumption discipline can be stated. -/
def multiMillerLoop {Fq G : Type} (X : Fq12Ops Fq G)
    (terms : List (G1AffT Fq × G2PreparedT Fq)) :
    Option (G × List (G1AffT Fq × List (CoeffT Fq))) :=
  let pairs := (terms.filter fun t => !t.1.infinity && !t.2.infinity).map
    fun t => (t.1, t.2.coeffs)
  (blsXHalfBits.foldl (millerStep X) (some (false, X.one, pairs))).bind
    fun st =>
  (consumeStep X st.2.1 st.2.2).bind fun fp =>
  some (X.conjugate fp.1, fp.2)

/-- The per-term coefficient consumption the bit schedule demands: nothing
before the first set bit, then one per bit plus one per set bit. -/
def millerBitSteps : Bool → List Bool → ℕ
  | _, [] => 0
  | false, b :: bs => millerBitSteps b bs
  | true, b :: bs => (if b then 2 else 1) + millerBitSteps true bs

/-! ### `Fq12` as a multiplicative group, the final exponentiation and `Gt`

Modelled from the spec: the nonzero elements of the field `Fq12` form a
commutative group under multiplication, on which squaring is
self-multiplication, `pow_vartime` is exponentiation, the Frobenius
endomorphism `φᵏ` raises to the `p^k`-th power (`p` the base-field
characteristic), and conjugation — negation of the `w`-coordinate over
`Fq6` — coincides with `φ⁶`, the `p⁶`-th power map.  The definitions below
take an arbitrary commutative group `G` and an arbitrary `p` in these
roles. -/

section Fq12Group

variable {G : Type} [CommGroup G]

/-- Modelled from the spec: `Fq12` conjugation, the `p⁶`-power map. -/
def conjG (p : ℕ) (f : G) : G := f ^ p ^ 6

/-- Modelled from the spec: `frobenius_map(k)`, the `p^k`-power map. -/
def frobG (p k : ℕ) (f : G) : G := f ^ p ^ k

/-- Modelled from the spec: `Fq12::invert` — total on the unit group, so
it always returns `some`; the `CtOption` shape is kept. -/
def invertG (f : G) : Option G := some f⁻¹

/-- Embedding of the inner `exp_by_x`: `pow_vartime(&[x])` followed by a
conjugation because `BLS_X_IS_NEGATIVE`. -/
def expByX (p x : ℕ) (f : G) : G := conjG p (f ^ x)

/-- The easy part of `final_exponentiation` (`mod.rs` lines 285–294),
applied to `f` and the output `f2` of `invert`: `r ← conj(f)·f2;
r ← φ²(r)·r`. -/
def easyPart (p : ℕ) (f f2 : G) : G :=
  let f1 := conjG p f
  let r := f1 * f2
  let f2 := r
  let r := frobG p 2 r
  r * f2

/-- The hard part of `final_exponentiation` (`mod.rs` lines 303–335),
translated statement by statement. -/
def hardPart (p : ℕ) (r : G) : G :=
  let x := BLS_X
  let y0 := r * r
  let y1 := expByX p x y0
  let x := x / 2
  let y2 := expByX p x y1
  let x := x * 2
  let y3 := conjG p r
  let y1 := y1 * y3
  let y1 := conjG p y1
  let y1 := y1 * y2
  let y2 := expByX p x y1
  let y3 := expByX p x y2
  let y1 := conjG p y1
  let y3 := y3 * y1
  let y1 := conjG p y1
  let y1 := frobG p 3 y1
  let y2 := frobG p 2 y2
  let y1 := y1 * y2
  let y2 := expByX p x y3
  let y2 := y2 * y0
  let y2 := y2 * r
  let y1 := y1 * y2
  let y2 := frobG p 1 y3
  y1 * y2

/-- The `Gt` wrapper: an `Fq12` element written additively. -/
structure GtT (G : Type) where
  val : G

/-- Embedding of `final_exponentiation`: easy part, hard part, wrap in
`Gt`; the `unwrap` of the `CtOption` is embedded as the `Option`. -/
def finalExponentiationG (p : ℕ) (f : G) : Option (GtT G) :=
  (invertG f).map fun f2 => ⟨hardPart p (easyPart p f f2)⟩

/-- Modelled from the spec: the concrete `Fq12Ops` record the Miller loop
uses, over the group semantics — `one` is the group unit, `square` is
self-multiplication, `conjugate` the `p⁶`-power map, and `mul_by_014`
multiplies by the (abstract) interpretation `sp` of a sparse line
element. -/
def groupFq12Ops {Fq : Type} (p : ℕ)
    (sp : Fq2T Fq → Fq2T Fq → Fq2T Fq → G) (fqmul : Fq → Fq → Fq) :
    Fq12Ops Fq G :=
  ⟨1, fun x => x * x, conjG p, fun f c0 c1 c4 => f * sp c0 c1 c4, fqmul⟩

/-- Embedding of `Bls12::pairing`: one-term multi-Miller loop over the
prepared `q`, then the final exponentiation. -/
def pairingBls {Fq : Type} (p : ℕ)
    (sp : Fq2T Fq → Fq2T Fq → Fq2T Fq → G) (fqmul : Fq → Fq → Fq)
    (O : Fq2Ops Fq) (P : G1AffT Fq) (Q : G2AffT Fq) : Option (GtT G) :=
  (multiMillerLoop (groupFq12Ops p sp fqmul)
      [(P, g2PreparedFromAffine O Q)]).bind fun fr =>
  finalExponentiationG p fr.1

end Fq12Group

/-! ### `Gt` scalar multiplication (`impl Mul<&Fr> for Gt`)

The scalar field `Fr` (`fr.rs`) is not among the provided sources; per the
spec its elements are canonically encoded as 32 little-endian bytes of
their integer value, which is below the 255-bit group order.  The scalar is
therefore carried as its canonical integer value `n`, and `to_repr` is
`leBytes 32 n`.  `Gt` addition is `Fq12` multiplication and `Gt` doubling
is `Fq12` squaring, so the underlying carrier is an arbitrary commutative
monoid. -/

/-- The group order `r` of `Fr` (a 255-bit prime). -/
def rBLS : ℕ :=
  52435875175126190479447740508185965837690552500527637822603658699938581184513

/-- The bits of one byte, most significant first (the inner
`(0..8).rev().map(move |i| (byte >> i) & 1)`). -/
def byteBitsMSB (b : ℕ) : List Bool :=
  ((List.range 8).reverse).map fun i => Nat.testBit b i

/-- The bit schedule of `Mul<&Fr> for Gt`: bytes of `to_repr` reversed,
each byte most-significant-bit first, skipping the leading (always unset)
bit. -/
def frScalarBits (n : ℕ) : List Bool :=
  ((((leBytes 32 n).reverse).map byteBitsMSB).flatten).drop 1

/-- The integer value of a bit string read most-significant-bit first,
on top of an accumulated high part `a`. -/
def bitsVal (a : ℕ) (bs : List Bool) : ℕ :=
  bs.foldl (fun v b => 2 * v + b.toNat) a

/-- Embedding of `Group::identity` for `Gt`: `Gt(Fq12::one())`. -/
def gtIdentity {G : Type} [One G] : GtT G := ⟨1⟩

/-- Embedding of `Mul<&Fr> for Gt`: double-and-add from the most
significant bit, starting from the identity; `acc.double()` is `Fq12`
squaring and `acc + self` is `Fq12` multiplication, and the constant-time
`conditional_select` is the selection on the bit. -/
def gtMulFr {M : Type} [CommMonoid M] (g : M) (n : ℕ) : M :=
  (frScalarBits n).foldl
    (fun acc bit => let acc := acc * acc; if bit then acc * g else acc) 1

/-! ## A small concrete model

A concrete instance of the spec-modelled primitives over small carriers.
It exhibits the satisfiability of every law of `SaplingModel` and feeds the
witnesses of the pipeline theorems. -/

/-- A 16-byte key tag for the demo AEAD. -/
def demoTag (k : List ℕ) : List ℕ := (k ++ List.replicate 16 0).take 16

/-- Demo AEAD seal: append the key tag. -/
def demoSeal (k m : List ℕ) : List ℕ := m ++ demoTag k

/-- Demo AEAD open: check and strip the key tag. -/
def demoOpen (k c : List ℕ) : Option (List ℕ) :=
  if 16 ≤ c.length ∧ c.drop (c.length - 16) = demoTag k then
    some (c.take (c.length - 16))
  else
    none

/-- A 32-byte encoding of a small value. -/
def demoBytes (v : ℕ) : List ℕ := v :: List.replicate 31 0

/-- The small concrete `SaplingModel`: scalars in `Fin 251`, points in
`ZMod 11` (an abelian group, acted on by scalars through their values),
value commitments and keys as plain data. -/
def demoModel : SaplingModel (Fin 251) (ZMod 11) Unit ℕ (List ℕ) where
  smul a p := (a.val : ZMod 11) * p
  mulByCofactor p := 8 * p
  kdfSapling p q := [p.val, q.val]
  prfOck o _ c e := 1 :: o ++ [c, e.val]
  aeadSeal := demoSeal
  aeadOpen := demoOpen
  chachaXor1 _ c := c
  scalarToRepr s := demoBytes s.val
  scalarFromRepr l :=
    match l with
    | b :: rest =>
      if h : b < 251 ∧ rest = List.replicate 31 0 then some ⟨b, h.1⟩ else none
    | [] => none
  pointToBytes p := demoBytes p.val
  pointFromBytesPrime l :=
    match l with
    | b :: rest =>
      if b < 11 ∧ rest = List.replicate 31 0 then some (b : ZMod 11) else none
    | [] => none
  gd _ := some (2 : ZMod 11)
  fromParts d p := some ⟨d, p⟩
  cm n := n.value
  prfEsk rs := ⟨rs.headD 0 % 251, Nat.mod_lt _ (by norm_num)⟩
  smul_comm a b p := by
    show (a.val : ZMod 11) * ((b.val : ZMod 11) * p) = _
    ring
  mulByCofactor_smul a p := by
    show (8 : ZMod 11) * ((a.val : ZMod 11) * p) = _
    ring
  aead_open_seal k m := by
    simp only [demoOpen, demoSeal]
    rw [if_pos]
    · congr 1
      have : (m ++ demoTag k).length - 16 = m.length := by
        simp [demoTag, List.length_take]
      rw [this, List.take_left]
    · constructor
      · simp [demoTag, List.length_take]
      · have : (m ++ demoTag k).length - 16 = m.length := by
          simp [demoTag, List.length_take]
        rw [this, List.drop_left]
  aead_seal_length k m := by simp [demoSeal, demoTag, List.length_take]
  aead_seal_of_open k c m h := by
    simp only [demoOpen] at h
    split at h
    · rename_i hc
      cases h
      simp only [demoSeal]
      rw [← hc.2, List.take_append_drop]
    · cases h
  chachaXor1_seal_take k m n h := by
    show (demoSeal k m).take n = m.take n
    simp only [demoSeal]
    rw [List.take_append_of_le_length h]
  scalarFromRepr_toRepr s := by
    show (match demoBytes s.val with
      | b :: rest =>
        if h : b < 251 ∧ rest = List.replicate 31 0 then
          some (⟨b, h.1⟩ : Fin 251) else none
      | [] => none) = some s
    simp [demoBytes, s.isLt]
  scalarToRepr_length s := by simp [demoBytes]
  pointFromBytes_toBytes p := by
    show (match demoBytes p.val with
      | b :: rest =>
        if b < 11 ∧ rest = List.replicate 31 0 then
          some ((b : ℕ) : ZMod 11) else none
      | [] => none) = some p
    simp [demoBytes, ZMod.val_lt p, ZMod.natCast_val, ZMod.cast_id]
  pointToBytes_length p := by simp [demoBytes]
  fromParts_eq d p pa h := by cases h; rfl

/-- Demo consensus parameters with Canopy inactive everywhere. -/
def demoParams : ConsensusParams := ⟨fun _ => false, 0, 0⟩

/-- Demo consensus parameters with Canopy active everywhere, activation
height 10 and grace period 20. -/
def demoParamsCanopy : ConsensusParams := ⟨fun _ => true, 10, 20⟩

/-! ## Helper lemmas -/

theorem leBytes_length (k n : ℕ) : (leBytes k n).length = k := by
  induction k generalizing n with
  | zero => rfl
  | succ k ih => simp [leBytes, ih]

theorem leBytes_foldr (k n : ℕ) :
    (leBytes k n).foldr (fun b acc => b + 256 * acc) 0 = n % 256 ^ k := by
  induction k generalizing n with
  | zero => simp [leBytes, Nat.mod_one]
  | succ k ih =>
    simp only [leBytes, List.foldr_cons, ih]
    rw [pow_succ, mul_comm (256 ^ k) 256, Nat.mod_mul]

theorem readU64LE_leBytes (n : ℕ) (h : n < 2 ^ 64) :
    readU64LE (leBytes 8 n) = n := by
  have h8 : (leBytes 8 n).take 8 = leBytes 8 n := by
    apply List.take_of_length_le
    simp [leBytes_length]
  rw [readU64LE, h8, leBytes_foldr]
  exact Nat.mod_eq_of_lt (by norm_num at h ⊢; exact h)

theorem take_append_len {α : Type} (l₁ l₂ : List α) (n : ℕ)
    (h : l₁.length = n) : (l₁ ++ l₂).take n = l₁ := by
  subst h; exact List.take_left l₁ l₂

theorem drop_append_len {α : Type} (l₁ l₂ : List α) (n : ℕ)
    (h : l₁.length = n) : (l₁ ++ l₂).drop n = l₂ := by
  subst h; exact List.drop_left l₁ l₂

theorem readU64LE_append (l₁ l₂ : List ℕ) (h : l₁.length = 8) :
    readU64LE (l₁ ++ l₂) = readU64LE l₁ := by
  simp only [readU64LE]
  rw [take_append_len l₁ l₂ 8 h, List.take_of_length_le (le_of_eq h)]

theorem memoDefault_eq : memoDefault = 0xF6 :: List.replicate 511 0 := by
  rw [memoDefault, show (512 : ℕ) = 511 + 1 from rfl, List.replicate_succ,
    List.set_cons_zero]

/-! ## C4 and C10: `Memo::from_bytes` -/

/-- C4, counterexample: at the empty slice, `Memo::from_bytes` does not
return the all-zero right-padding of its input — it returns the ZIP-302
default memo, whose first byte is `0xF6`.  This refutes the claim that for
every slice of at most 512 bytes the result is the input right-padded with
zeroes. -/
theorem c4_memo_from_bytes_empty_not_zero_padded :
    ¬ ∃ out, memoFromBytes [] = some out ∧ out.length = 512 ∧
      out.take ([] : List ℕ).length = ([] : List ℕ) ∧
      ∀ b ∈ out.drop ([] : List ℕ).length, b = 0 := by
  rintro ⟨out, h1, -, -, h4⟩
  have hout : out = memoDefault := by
    have : some out = some memoDefault := by rw [← h1]; rfl
    exact Option.some.injEq _ _ ▸ this.symm ▸ rfl
  subst hout
  have hmem : (0xF6 : ℕ) ∈ memoDefault.drop ([] : List ℕ).length := by
    rw [memoDefault_eq, List.length_nil, List.drop_zero]
    exact List.mem_cons_self _ _
  exact absurd (h4 _ hmem) (by norm_num)

/-- C4, amended: `Memo::from_bytes` rejects slices longer than 512 bytes,
maps the empty slice to the ZIP-302 default memo (`0xF6` followed by 511
zero bytes), and right-pads every other slice of at most 512 bytes with
zeroes. -/
theorem c4_memo_from_bytes_amended (b : List ℕ) :
    memoFromBytes b =
      if 512 < b.length then none
      else if b = [] then some memoDefault
      else some (b ++ List.replicate (512 - b.length) 0) := by
  simp only [memoFromBytes, List.isEmpty_iff]
  by_cases hb : b = []
  · subst hb; simp
  · simp only [hb, if_false]
    by_cases hl : b.length ≤ 512
    · rw [if_pos hl, if_neg (by omega)]
    · rw [if_neg hl, if_pos (by omega)]

/-- C10: `Memo::from_bytes` on the empty slice returns `Memo::default()`,
whose content is `0xF6` followed by 511 zero bytes — which differs from
the 512 all-zero bytes plain zero-padding would produce. -/
theorem c10_memo_from_bytes_empty_is_default :
    memoFromBytes [] = some memoDefault ∧
    memoDefault = 0xF6 :: List.replicate 511 0 ∧
    memoDefault ≠ List.replicate 512 0 := by
  refine ⟨rfl, memoDefault_eq, ?_⟩
  intro h
  rw [memoDefault_eq, show (512 : ℕ) = 511 + 1 from rfl,
    List.replicate_succ] at h
  injection h with h1 h2
  exact absurd h1 (by norm_num)

/-! ## C3: the plaintext version policy -/

/-- C3: `plaintext_version_is_valid(h, b)` returns true exactly when Canopy
is inactive and `b = 0x01`, or Canopy is active, `h` is below the end of
the ZIP-212 grace period and `b ∈ {0x01, 0x02}`, or Canopy is active, the
grace period has elapsed and `b = 0x02`; and whenever it returns false on
the decrypted plaintext, full decryption, compact decryption and output
recovery all return `none`. -/
theorem c3_plaintext_version_policy :
    (∀ (P : ConsensusParams) (h lead : ℕ),
      plaintextVersionIsValid P h lead = true ↔
        ((P.canopyActive h = false ∧ lead = 1) ∨
          (P.canopyActive h = true ∧
            h < P.canopyActivationHeight + P.zip212GracePeriod ∧
            (lead = 1 ∨ lead = 2)) ∨
          (P.canopyActive h = true ∧
            P.canopyActivationHeight + P.zip212GracePeriod ≤ h ∧
            lead = 2))) ∧
    (∀ (Scalar Point PointU FrT Key : Type) [DecidableEq Scalar]
        [DecidableEq Point] [DecidableEq FrT]
        (M : SaplingModel Scalar Point PointU FrT Key) (P : ConsensusParams)
        (height : ℕ) (ivk : Scalar) (epk : Point) (cmu : FrT)
        (enc pt : List ℕ),
      M.aeadOpen (M.kdfSapling (saplingKaAgree M ivk epk) epk) enc = some pt →
      plaintextVersionIsValid P height (pt.getD 0 0) = false →
      trySaplingNoteDecryption M P height ivk epk cmu enc = none) ∧
    (∀ (Scalar Point PointU FrT Key : Type) [DecidableEq Scalar]
        [DecidableEq Point] [DecidableEq FrT]
        (M : SaplingModel Scalar Point PointU FrT Key) (P : ConsensusParams)
        (height : ℕ) (ivk : Scalar) (epk : Point) (cmu : FrT) (enc : List ℕ),
      plaintextVersionIsValid P height
        ((M.chachaXor1 (M.kdfSapling (saplingKaAgree M ivk epk) epk)
          enc).getD 0 0) = false →
      trySaplingCompactNoteDecryption M P height ivk epk cmu enc = none) ∧
    (∀ (Scalar Point PointU FrT Key : Type) [DecidableEq Scalar]
        [DecidableEq Point] [DecidableEq FrT]
        (M : SaplingModel Scalar Point PointU FrT Key) (P : ConsensusParams)
        (height : ℕ) (ock : Key) (cmu : FrT) (epk : Point)
        (enc out op : List ℕ) (pk_d : Point) (esk : Scalar) (pt : List ℕ),
      M.aeadOpen ock out = some op →
      M.pointFromBytesPrime (op.take 32) = some pk_d →
      M.scalarFromRepr ((op.drop 32).take 32) = some esk →
      M.aeadOpen (M.kdfSapling (saplingKaAgree M esk pk_d) epk) enc =
        some pt →
      plaintextVersionIsValid P height (pt.getD 0 0) = false →
      trySaplingOutputRecoveryWithOck M P height ock cmu epk enc out =
        none) := by
  refine ⟨?_, ?_, ?_, ?_⟩
  · intro P h lead
    simp only [plaintextVersionIsValid]
    cases hact : P.canopyActive h
    · simp [beq_iff_eq]
    · simp only [if_true, Bool.true_eq_false, Bool.false_eq_true, false_and,
        false_or, eq_self_iff_true, true_and]
      split_ifs with h1 h2
      · simp only [Bool.and_eq_true, Bool.not_eq_true', beq_eq_false_iff_ne,
          ne_eq, decide_eq_true_eq] at h1
        simp only [Bool.false_eq_true, false_iff]
        rintro (⟨hlt, hl | hl⟩ | ⟨hge, hl⟩) <;> omega
      · simp only [Bool.and_eq_true, Bool.not_eq_true', beq_eq_false_iff_ne,
          ne_eq, decide_eq_true_eq, not_and] at h1 h2
        simp only [Bool.false_eq_true, false_iff]
        rintro (⟨hlt, hl | hl⟩ | ⟨hge, hl⟩) <;> omega
      · simp only [Bool.and_eq_true, Bool.not_eq_true', beq_eq_false_iff_ne,
          ne_eq, decide_eq_true_eq, not_and] at h1 h2
        simp only [eq_self_iff_true, true_iff]
        omega
  · intro Scalar Point PointU FrT Key _ _ _ M P height ivk epk cmu enc pt
      hopen hbad
    by_cases hlen : enc.length = ENC_CIPHERTEXT_SIZE
    · simp only [trySaplingNoteDecryption, if_pos hlen, hopen,
        Option.some_bind, parseNotePlaintextWithoutMemo, hbad,
        Bool.false_eq_true, if_false, Option.none_bind]
    · simp only [trySaplingNoteDecryption, if_neg hlen]
  · intro Scalar Point PointU FrT Key _ _ _ M P height ivk epk cmu enc hbad
    by_cases hlen : enc.length = COMPACT_NOTE_SIZE
    · simp only [trySaplingCompactNoteDecryption, if_pos hlen,
        parseNotePlaintextWithoutMemo, hbad, Bool.false_eq_true, if_false]
    · simp only [trySaplingCompactNoteDecryption, if_neg hlen]
  · intro Scalar Point PointU FrT Key _ _ _ M P height ock cmu epk enc out
      op pk_d esk pt hop hpk hesk hopen hbad
    by_cases hlen : enc.length = ENC_CIPHERTEXT_SIZE ∧
        out.length = OUT_CIPHERTEXT_SIZE
    · simp only [trySaplingOutputRecoveryWithOck, if_pos hlen, hop,
        Option.some_bind, hpk, hesk, hopen, hbad, Bool.false_eq_true,
        if_false]
    · simp only [trySaplingOutputRecoveryWithOck, if_neg hlen]

/-- C3, witness: both directions exercised — the policy accepts lead byte
2 inside the grace period of the demo Canopy network, and a sealed
plaintext with lead byte 2 under a pre-Canopy network is rejected by full
decryption. -/
theorem c3_plaintext_version_policy_witness :
    plaintextVersionIsValid demoParamsCanopy 15 2 = true ∧
    trySaplingNoteDecryption demoModel demoParams 0 (0 : Fin 251)
      (0 : ZMod 11) 0
      (demoModel.aeadSeal
        (demoModel.kdfSapling (saplingKaAgree demoModel 0 0) 0)
        (2 :: List.replicate 563 0)) = none := by
  constructor
  · exact (c3_plaintext_version_policy.1 demoParamsCanopy 15 2).mpr
      (Or.inr (Or.inl ⟨rfl, by norm_num [demoParamsCanopy], Or.inr rfl⟩))
  · exact c3_plaintext_version_policy.2.1 (Fin 251) (ZMod 11) Unit ℕ
      (List ℕ) demoModel demoParams 0 0 0 0 _ _
      (demoModel.aead_open_seal _ _) rfl

/-! ## C1 and C5: the note-encryption round trip -/

section PipelineProofs

variable {Scalar Point PointU FrT Key : Type}
variable [DecidableEq Scalar] [DecidableEq Point] [DecidableEq FrT]

theorem notePlaintext_fields (lead : ℕ) (d le8 rsb memo : List ℕ)
    (hd : d.length = 11) (hle : le8.length = 8) (hrsb : rsb.length = 32) :
    (lead :: (d ++ (le8 ++ (rsb ++ memo)))).getD 0 0 = lead ∧
    ((lead :: (d ++ (le8 ++ (rsb ++ memo)))).drop 1).take 11 = d ∧
    (lead :: (d ++ (le8 ++ (rsb ++ memo)))).drop 12 =
      le8 ++ (rsb ++ memo) ∧
    ((lead :: (d ++ (le8 ++ (rsb ++ memo)))).drop 20).take 32 = rsb ∧
    (lead :: (d ++ (le8 ++ (rsb ++ memo)))).drop 52 = memo := by
  refine ⟨rfl, ?_, ?_, ?_, ?_⟩
  · show ((d ++ (le8 ++ (rsb ++ memo))).take 11) = d
    exact take_append_len _ _ _ hd
  · rw [show (12 : ℕ) = 11 + 1 from rfl, List.drop_succ_cons]
    exact drop_append_len _ _ _ hd
  · rw [show (20 : ℕ) = 19 + 1 from rfl, List.drop_succ_cons,
      show (19 : ℕ) = d.length + 8 from by rw [hd], List.drop_append,
      drop_append_len le8 _ 8 hle]
    exact take_append_len _ _ _ hrsb
  · rw [show (52 : ℕ) = 51 + 1 from rfl, List.drop_succ_cons,
      show (51 : ℕ) = d.length + 40 from by rw [hd], List.drop_append,
      show (40 : ℕ) = le8.length + 32 from by rw [hle], List.drop_append]
    exact drop_append_len _ _ _ hrsb

theorem rseedBytes_length (M : SaplingModel Scalar Point PointU FrT Key)
    (rseedv : RseedT Scalar)
    (hrs : ∀ rs, rseedv = RseedT.AfterZip212 rs → rs.length = 32) :
    (rseedBytes M rseedv).length = 32 := by
  cases rseedv with
  | BeforeZip212 rcm => exact M.scalarToRepr_length rcm
  | AfterZip212 rs => exact hrs rs rfl

theorem parseNotePlaintext_roundtrip
    (M : SaplingModel Scalar Point PointU FrT Key) (P : ConsensusParams)
    (height : ℕ) (ivk eskRand : Scalar) (g_d : Point) (d : List ℕ)
    (value : ℕ) (rseedv : RseedT Scalar) (memo : List ℕ)
    (hd : d.length = 11) (hv : value < 2 ^ 64)
    (hrs : ∀ rs, rseedv = RseedT.AfterZip212 rs → rs.length = 32)
    (hgd : M.gd d = some g_d)
    (hfp : M.fromParts d (M.smul ivk g_d) = some ⟨d, M.smul ivk g_d⟩)
    (hlead : plaintextVersionIsValid P height (leadByte rseedv) = true) :
    parseNotePlaintextWithoutMemo M P height ivk
      (M.smul (generateOrDeriveEsk M rseedv eskRand) g_d)
      (M.cm ⟨value, g_d, M.smul ivk g_d, rseedv⟩)
      (leadByte rseedv ::
        (d ++ (leBytes 8 value ++ (rseedBytes M rseedv ++ memo)))) =
    some (⟨value, g_d, M.smul ivk g_d, rseedv⟩, ⟨d, M.smul ivk g_d⟩) := by
  have hval : readU64LE (leBytes 8 value ++ (rseedBytes M rseedv ++ memo)) =
      value := by
    rw [readU64LE_append _ _ (leBytes_length 8 value),
      readU64LE_leBytes value hv]
  cases rseedv with
  | BeforeZip212 rcm =>
    obtain ⟨h0, h1, h2, h3, -⟩ := notePlaintext_fields 1 d (leBytes 8 value)
      (M.scalarToRepr rcm) memo hd (leBytes_length 8 value)
      (M.scalarToRepr_length rcm)
    have hlead1 : plaintextVersionIsValid P height 1 = true := hlead
    show parseNotePlaintextWithoutMemo M P height ivk
      (M.smul (generateOrDeriveEsk M (RseedT.BeforeZip212 rcm) eskRand) g_d)
      (M.cm ⟨value, g_d, M.smul ivk g_d, RseedT.BeforeZip212 rcm⟩)
      (1 :: (d ++ (leBytes 8 value ++ (M.scalarToRepr rcm ++ memo)))) = _
    have hval1 : readU64LE (leBytes 8 value ++ (M.scalarToRepr rcm ++ memo)) =
        value := hval
    simp only [parseNotePlaintextWithoutMemo, h0, h1, h2, h3, hval1, hlead1,
      if_true]
    simp only [M.scalarFromRepr_toRepr, Option.map_some', Option.map_some, Option.some_bind,
      hgd, hfp, createNote, deriveEsk]
    rw [if_neg (fun h => h rfl)]
  | AfterZip212 rs =>
    obtain ⟨h0, h1, h2, h3, -⟩ := notePlaintext_fields 2 d (leBytes 8 value)
      rs memo hd (leBytes_length 8 value) (hrs rs rfl)
    have hlead2 : plaintextVersionIsValid P height 2 = true := hlead
    have hval2 : readU64LE (leBytes 8 value ++ (rs ++ memo)) = value := hval
    show parseNotePlaintextWithoutMemo M P height ivk
      (M.smul (generateOrDeriveEsk M (RseedT.AfterZip212 rs) eskRand) g_d)
      (M.cm ⟨value, g_d, M.smul ivk g_d, RseedT.AfterZip212 rs⟩)
      (2 :: (d ++ (leBytes 8 value ++ (rs ++ memo)))) = _
    simp only [parseNotePlaintextWithoutMemo, h0, h1, h2, h3, hval2, hlead2,
      if_true]
    rw [if_neg (by norm_num)]
    simp only [Option.some_bind, hgd, hfp, createNote, Option.map_some', Option.map_some,
      deriveEsk]
    rw [if_neg (fun h => h rfl), if_neg (fun h => h rfl)]

theorem kaAgree_comm (M : SaplingModel Scalar Point PointU FrT Key)
    (a b : Scalar) (g : Point) :
    saplingKaAgree M a (M.smul b g) = saplingKaAgree M b (M.smul a g) := by
  unfold saplingKaAgree
  rw [M.mulByCofactor_smul, M.mulByCofactor_smul, M.smul_comm]

theorem notePlaintext_length (lead : ℕ) (d le8 rsb memo : List ℕ)
    (hd : d.length = 11) (hle : le8.length = 8) (hrsb : rsb.length = 32)
    (hm : memo.length = 512) :
    (lead :: (d ++ (le8 ++ (rsb ++ memo)))).length = NOTE_PLAINTEXT_SIZE := by
  simp [List.length_cons, List.length_append, hd, hle, hrsb, hm,
    NOTE_PLAINTEXT_SIZE, COMPACT_NOTE_SIZE]

theorem trySaplingNoteDecryption_of_seal
    (M : SaplingModel Scalar Point PointU FrT Key) (P : ConsensusParams)
    (height : ℕ) (ivk : Scalar) (epk : Point) (cmu : FrT) (pt : List ℕ)
    (key : Key) (note : NoteT Scalar Point) (toA : PaymentAddressT Point)
    (hkey : key = M.kdfSapling (saplingKaAgree M ivk epk) epk)
    (hlen : pt.length = NOTE_PLAINTEXT_SIZE)
    (hparse : parseNotePlaintextWithoutMemo M P height ivk epk cmu pt =
      some (note, toA)) :
    trySaplingNoteDecryption M P height ivk epk cmu (M.aeadSeal key pt) =
      some (note, toA, (pt.drop COMPACT_NOTE_SIZE).take 512) := by
  unfold trySaplingNoteDecryption
  rw [if_pos (by rw [M.aead_seal_length, hlen]; rfl), hkey]
  simp only [M.aead_open_seal, Option.some_bind, hparse]

theorem trySaplingOutputRecovery_roundtrip
    (M : SaplingModel Scalar Point PointU FrT Key) (P : ConsensusParams)
    (height : ℕ) (ovk : List ℕ) (cv : PointU) (ivk eskRand : Scalar)
    (g_d : Point) (d : List ℕ) (value : ℕ) (rseedv : RseedT Scalar)
    (memo : List ℕ)
    (hd : d.length = 11) (hv : value < 2 ^ 64) (hm : memo.length = 512)
    (hrs : ∀ rs, rseedv = RseedT.AfterZip212 rs → rs.length = 32)
    (hgd : M.gd d = some g_d)
    (hfp : M.fromParts d (M.smul ivk g_d) = some ⟨d, M.smul ivk g_d⟩)
    (hlead : plaintextVersionIsValid P height (leadByte rseedv) = true) :
    trySaplingOutputRecovery M P height ovk cv
      (M.cm ⟨value, g_d, M.smul ivk g_d, rseedv⟩)
      (M.smul (generateOrDeriveEsk M rseedv eskRand) g_d)
      (encryptNotePlaintext M (SNE.new M ovk
        ⟨value, g_d, M.smul ivk g_d, rseedv⟩ ⟨d, M.smul ivk g_d⟩ memo
        eskRand))
      (encryptOutgoingPlaintext M (SNE.new M ovk
        ⟨value, g_d, M.smul ivk g_d, rseedv⟩ ⟨d, M.smul ivk g_d⟩ memo
        eskRand) cv (M.cm ⟨value, g_d, M.smul ivk g_d, rseedv⟩)) =
    some (⟨value, g_d, M.smul ivk g_d, rseedv⟩, ⟨d, M.smul ivk g_d⟩,
      memo) := by
  have hval : readU64LE (leBytes 8 value ++ (rseedBytes M rseedv ++ memo)) =
      value := by
    rw [readU64LE_append _ _ (leBytes_length 8 value),
      readU64LE_leBytes value hv]
  have hop_take : ∀ (p : Point) (s : Scalar),
      (M.pointToBytes p ++ M.scalarToRepr s).take 32 = M.pointToBytes p :=
    fun p s => take_append_len _ _ _ (M.pointToBytes_length p)
  have hop_drop : ∀ (p : Point) (s : Scalar),
      ((M.pointToBytes p ++ M.scalarToRepr s).drop 32).take 32 =
        M.scalarToRepr s := fun p s => by
    rw [drop_append_len _ _ _ (M.pointToBytes_length p),
      List.take_of_length_le (le_of_eq (M.scalarToRepr_length s))]
  cases rseedv with
  | BeforeZip212 rcm =>
    obtain ⟨h0, h1, h2, h3, h4⟩ := notePlaintext_fields 1 d (leBytes 8 value)
      (M.scalarToRepr rcm) memo hd (leBytes_length 8 value)
      (M.scalarToRepr_length rcm)
    have hlead1 : plaintextVersionIsValid P height 1 = true := hlead
    have hval1 : readU64LE (leBytes 8 value ++ (M.scalarToRepr rcm ++ memo)) =
        value := hval
    simp only [trySaplingOutputRecovery, encryptNotePlaintext,
      encryptOutgoingPlaintext, SNE.new, generateOrDeriveEsk, leadByte,
      rseedBytes, trySaplingOutputRecoveryWithOck]
    rw [if_pos ⟨by
        rw [M.aead_seal_length, notePlaintext_length 1 d (leBytes 8 value)
          (M.scalarToRepr rcm) memo hd (leBytes_length 8 value)
          (M.scalarToRepr_length rcm) hm]; rfl, by
        rw [M.aead_seal_length, List.length_append,
          M.pointToBytes_length, M.scalarToRepr_length]; rfl⟩]
    simp only [M.aead_open_seal, Option.some_bind, hop_take, hop_drop,
      M.pointFromBytes_toBytes, M.scalarFromRepr_toRepr, h0, h1, h2, h3, h4,
      hval1, hlead1, if_true, Option.map_some', hgd, hfp, createNote,
      deriveEsk]
    rw [if_neg (fun h => h rfl), if_neg (fun h => h rfl),
      show COMPACT_NOTE_SIZE = 52 from rfl, h4,
      List.take_of_length_le (le_of_eq hm)]
  | AfterZip212 rs =>
    obtain ⟨h0, h1, h2, h3, h4⟩ := notePlaintext_fields 2 d (leBytes 8 value)
      rs memo hd (leBytes_length 8 value) (hrs rs rfl)
    have hlead2 : plaintextVersionIsValid P height 2 = true := hlead
    have hval2 : readU64LE (leBytes 8 value ++ (rs ++ memo)) = value := hval
    simp only [trySaplingOutputRecovery, encryptNotePlaintext,
      encryptOutgoingPlaintext, SNE.new, generateOrDeriveEsk, leadByte,
      rseedBytes, trySaplingOutputRecoveryWithOck]
    rw [if_pos ⟨by
        rw [M.aead_seal_length, notePlaintext_length 2 d (leBytes 8 value)
          rs memo hd (leBytes_length 8 value) (hrs rs rfl) hm]; rfl, by
        rw [M.aead_seal_length, List.length_append,
          M.pointToBytes_length, M.scalarToRepr_length]; rfl⟩]
    simp only [M.aead_open_seal, Option.some_bind, hop_take, hop_drop,
      M.pointFromBytes_toBytes, M.scalarFromRepr_toRepr, h0, h1, h2, h3, h4,
      hval2, hlead2, if_true, Option.map_some', hgd, hfp, createNote,
      deriveEsk]
    rw [if_neg (by norm_num)]
    simp only [Option.some_bind, hgd, hfp, createNote, Option.map_some',
      deriveEsk]
    rw [if_neg (fun h => h rfl), if_neg (fun h => h rfl),
      if_neg (fun h => h rfl), show COMPACT_NOTE_SIZE = 52 from rfl, h4,
      List.take_of_length_le (le_of_eq hm)]

theorem notePlaintext_memo (lead : ℕ) (d le8 rsb memo : List ℕ)
    (hd : d.length = 11) (hle : le8.length = 8) (hrsb : rsb.length = 32)
    (hm : memo.length = 512) :
    ((lead :: (d ++ (le8 ++ (rsb ++ memo)))).drop COMPACT_NOTE_SIZE).take 512
      = memo := by
  obtain ⟨-, -, -, -, h4⟩ := notePlaintext_fields lead d le8 rsb memo hd hle
    hrsb
  rw [show COMPACT_NOTE_SIZE = 52 from rfl, h4,
    List.take_of_length_le (le_of_eq hm)]

theorem trySaplingNoteDecryption_roundtrip
    (M : SaplingModel Scalar Point PointU FrT Key) (P : ConsensusParams)
    (height : ℕ) (ovk : List ℕ) (ivk eskRand : Scalar)
    (g_d : Point) (d : List ℕ) (value : ℕ) (rseedv : RseedT Scalar)
    (memo : List ℕ)
    (hd : d.length = 11) (hv : value < 2 ^ 64) (hm : memo.length = 512)
    (hrs : ∀ rs, rseedv = RseedT.AfterZip212 rs → rs.length = 32)
    (hgd : M.gd d = some g_d)
    (hfp : M.fromParts d (M.smul ivk g_d) = some ⟨d, M.smul ivk g_d⟩)
    (hlead : plaintextVersionIsValid P height (leadByte rseedv) = true) :
    trySaplingNoteDecryption M P height ivk
      (SNE.new M ovk ⟨value, g_d, M.smul ivk g_d, rseedv⟩
        ⟨d, M.smul ivk g_d⟩ memo eskRand).epk
      (M.cm ⟨value, g_d, M.smul ivk g_d, rseedv⟩)
      (encryptNotePlaintext M (SNE.new M ovk
        ⟨value, g_d, M.smul ivk g_d, rseedv⟩ ⟨d, M.smul ivk g_d⟩ memo
        eskRand)) =
    some (⟨value, g_d, M.smul ivk g_d, rseedv⟩, ⟨d, M.smul ivk g_d⟩,
      memo) := by
  have henc : encryptNotePlaintext M (SNE.new M ovk
      ⟨value, g_d, M.smul ivk g_d, rseedv⟩ ⟨d, M.smul ivk g_d⟩ memo
      eskRand) =
      M.aeadSeal
        (M.kdfSapling
          (saplingKaAgree M (generateOrDeriveEsk M rseedv eskRand)
            (M.smul ivk g_d))
          (M.smul (generateOrDeriveEsk M rseedv eskRand) g_d))
        (leadByte rseedv ::
          (d ++ (leBytes 8 value ++ (rseedBytes M rseedv ++ memo)))) := rfl
  have hepk : (SNE.new M ovk ⟨value, g_d, M.smul ivk g_d, rseedv⟩
      ⟨d, M.smul ivk g_d⟩ memo eskRand).epk =
      M.smul (generateOrDeriveEsk M rseedv eskRand) g_d := rfl
  rw [henc, hepk, trySaplingNoteDecryption_of_seal M P height ivk
    (M.smul (generateOrDeriveEsk M rseedv eskRand) g_d)
    (M.cm ⟨value, g_d, M.smul ivk g_d, rseedv⟩)
    (leadByte rseedv ::
      (d ++ (leBytes 8 value ++ (rseedBytes M rseedv ++ memo))))
    (M.kdfSapling
      (saplingKaAgree M (generateOrDeriveEsk M rseedv eskRand)
        (M.smul ivk g_d))
      (M.smul (generateOrDeriveEsk M rseedv eskRand) g_d))
    ⟨value, g_d, M.smul ivk g_d, rseedv⟩ ⟨d, M.smul ivk g_d⟩
    (congrArg
      (fun z => M.kdfSapling z
        (M.smul (generateOrDeriveEsk M rseedv eskRand) g_d))
      (kaAgree_comm M (generateOrDeriveEsk M rseedv eskRand) ivk g_d))
    (notePlaintext_length (leadByte rseedv) d (leBytes 8 value)
      (rseedBytes M rseedv) memo hd (leBytes_length 8 value)
      (rseedBytes_length M rseedv hrs) hm)
    (parseNotePlaintext_roundtrip M P height ivk eskRand g_d d value
      rseedv memo hd hv hrs hgd hfp hlead),
    notePlaintext_memo (leadByte rseedv) d (leBytes 8 value)
      (rseedBytes M rseedv) memo hd (leBytes_length 8 value)
      (rseedBytes_length M rseedv hrs) hm]

/-- C1: the note-encryption round trip.  For every model of the external
primitives, every consensus parameters, outgoing viewing key, incoming
viewing key `ivk`, rseed, value below `2⁶⁴`, 11-byte diversifier whose
`g_d` exists (and whose payment address is constructible), and 512-byte
memo, encrypting the note with `pk_d = ivk·g_d` and matching `cmu` at a
height where the lead byte is valid makes `try_sapling_note_decryption`
and `try_sapling_output_recovery` both return `some` of the original
`(note, to, memo)`, and the two results agree. -/
theorem c1_note_encryption_roundtrip
    (M : SaplingModel Scalar Point PointU FrT Key) (P : ConsensusParams)
    (height : ℕ) (ovk : List ℕ) (cv : PointU) (ivk eskRand : Scalar)
    (g_d : Point) (d : List ℕ) (value : ℕ) (rseedv : RseedT Scalar)
    (memo : List ℕ)
    (hd : d.length = 11) (hv : value < 2 ^ 64) (hm : memo.length = 512)
    (hrs : ∀ rs, rseedv = RseedT.AfterZip212 rs → rs.length = 32)
    (hgd : M.gd d = some g_d)
    (hfp : M.fromParts d (M.smul ivk g_d) = some ⟨d, M.smul ivk g_d⟩)
    (hlead : plaintextVersionIsValid P height (leadByte rseedv) = true) :
    trySaplingNoteDecryption M P height ivk
        (SNE.new M ovk ⟨value, g_d, M.smul ivk g_d, rseedv⟩
          ⟨d, M.smul ivk g_d⟩ memo eskRand).epk
        (M.cm ⟨value, g_d, M.smul ivk g_d, rseedv⟩)
        (encryptNotePlaintext M (SNE.new M ovk
          ⟨value, g_d, M.smul ivk g_d, rseedv⟩ ⟨d, M.smul ivk g_d⟩ memo
          eskRand)) =
      some (⟨value, g_d, M.smul ivk g_d, rseedv⟩, ⟨d, M.smul ivk g_d⟩,
        memo) ∧
    trySaplingOutputRecovery M P height ovk cv
        (M.cm ⟨value, g_d, M.smul ivk g_d, rseedv⟩)
        (SNE.new M ovk ⟨value, g_d, M.smul ivk g_d, rseedv⟩
          ⟨d, M.smul ivk g_d⟩ memo eskRand).epk
        (encryptNotePlaintext M (SNE.new M ovk
          ⟨value, g_d, M.smul ivk g_d, rseedv⟩ ⟨d, M.smul ivk g_d⟩ memo
          eskRand))
        (encryptOutgoingPlaintext M (SNE.new M ovk
          ⟨value, g_d, M.smul ivk g_d, rseedv⟩ ⟨d, M.smul ivk g_d⟩ memo
          eskRand) cv (M.cm ⟨value, g_d, M.smul ivk g_d, rseedv⟩)) =
      some (⟨value, g_d, M.smul ivk g_d, rseedv⟩, ⟨d, M.smul ivk g_d⟩,
        memo) ∧
    trySaplingNoteDecryption M P height ivk
        (SNE.new M ovk ⟨value, g_d, M.smul ivk g_d, rseedv⟩
          ⟨d, M.smul ivk g_d⟩ memo eskRand).epk
        (M.cm ⟨value, g_d, M.smul ivk g_d, rseedv⟩)
        (encryptNotePlaintext M (SNE.new M ovk
          ⟨value, g_d, M.smul ivk g_d, rseedv⟩ ⟨d, M.smul ivk g_d⟩ memo
          eskRand)) =
      trySaplingOutputRecovery M P height ovk cv
        (M.cm ⟨value, g_d, M.smul ivk g_d, rseedv⟩)
        (SNE.new M ovk ⟨value, g_d, M.smul ivk g_d, rseedv⟩
          ⟨d, M.smul ivk g_d⟩ memo eskRand).epk
        (encryptNotePlaintext M (SNE.new M ovk
          ⟨value, g_d, M.smul ivk g_d, rseedv⟩ ⟨d, M.smul ivk g_d⟩ memo
          eskRand))
        (encryptOutgoingPlaintext M (SNE.new M ovk
          ⟨value, g_d, M.smul ivk g_d, rseedv⟩ ⟨d, M.smul ivk g_d⟩ memo
          eskRand) cv (M.cm ⟨value, g_d, M.smul ivk g_d, rseedv⟩)) := by
  have hdec := trySaplingNoteDecryption_roundtrip M P height ovk ivk
    eskRand g_d d value rseedv memo hd hv hm hrs hgd hfp hlead
  have hrec : trySaplingOutputRecovery M P height ovk cv
      (M.cm ⟨value, g_d, M.smul ivk g_d, rseedv⟩)
      (SNE.new M ovk ⟨value, g_d, M.smul ivk g_d, rseedv⟩
        ⟨d, M.smul ivk g_d⟩ memo eskRand).epk
      (encryptNotePlaintext M (SNE.new M ovk
        ⟨value, g_d, M.smul ivk g_d, rseedv⟩ ⟨d, M.smul ivk g_d⟩ memo
        eskRand))
      (encryptOutgoingPlaintext M (SNE.new M ovk
        ⟨value, g_d, M.smul ivk g_d, rseedv⟩ ⟨d, M.smul ivk g_d⟩ memo
        eskRand) cv (M.cm ⟨value, g_d, M.smul ivk g_d, rseedv⟩)) =
      some (⟨value, g_d, M.smul ivk g_d, rseedv⟩, ⟨d, M.smul ivk g_d⟩,
        memo) :=
    trySaplingOutputRecovery_roundtrip M P height ovk cv ivk eskRand g_d d
      value rseedv memo hd hv hm hrs hgd hfp hlead
  exact ⟨hdec, hrec, hdec.trans hrec.symm⟩

/-- C1, witness: the round-trip theorem applied to the concrete demo model
at a pre-Canopy height with a `BeforeZip212` note of value 7. -/
theorem c1_note_encryption_roundtrip_witness :
    trySaplingNoteDecryption demoModel demoParams 0 (3 : Fin 251)
        (SNE.new demoModel (List.replicate 32 0)
          ⟨7, 2, demoModel.smul 3 2, RseedT.BeforeZip212 4⟩
          ⟨List.replicate 11 0, demoModel.smul 3 2⟩ (List.replicate 512 0)
          5).epk
        (demoModel.cm ⟨7, 2, demoModel.smul 3 2, RseedT.BeforeZip212 4⟩)
        (encryptNotePlaintext demoModel (SNE.new demoModel
          (List.replicate 32 0)
          ⟨7, 2, demoModel.smul 3 2, RseedT.BeforeZip212 4⟩
          ⟨List.replicate 11 0, demoModel.smul 3 2⟩ (List.replicate 512 0)
          5)) =
      some (⟨7, 2, demoModel.smul 3 2, RseedT.BeforeZip212 4⟩,
        ⟨List.replicate 11 0, demoModel.smul 3 2⟩,
        List.replicate 512 0) ∧
    trySaplingOutputRecovery demoModel demoParams 0 (List.replicate 32 0)
        () (demoModel.cm ⟨7, 2, demoModel.smul 3 2, RseedT.BeforeZip212 4⟩)
        (SNE.new demoModel (List.replicate 32 0)
          ⟨7, 2, demoModel.smul 3 2, RseedT.BeforeZip212 4⟩
          ⟨List.replicate 11 0, demoModel.smul 3 2⟩ (List.replicate 512 0)
          5).epk
        (encryptNotePlaintext demoModel (SNE.new demoModel
          (List.replicate 32 0)
          ⟨7, 2, demoModel.smul 3 2, RseedT.BeforeZip212 4⟩
          ⟨List.replicate 11 0, demoModel.smul 3 2⟩ (List.replicate 512 0)
          5))
        (encryptOutgoingPlaintext demoModel (SNE.new demoModel
          (List.replicate 32 0)
          ⟨7, 2, demoModel.smul 3 2, RseedT.BeforeZip212 4⟩
          ⟨List.replicate 11 0, demoModel.smul 3 2⟩ (List.replicate 512 0)
          5) ()
          (demoModel.cm
            ⟨7, 2, demoModel.smul 3 2, RseedT.BeforeZip212 4⟩)) =
      some (⟨7, 2, demoModel.smul 3 2, RseedT.BeforeZip212 4⟩,
        ⟨List.replicate 11 0, demoModel.smul 3 2⟩,
        List.replicate 512 0) := by
  have h := c1_note_encryption_roundtrip demoModel demoParams 0
    (List.replicate 32 0) () (3 : Fin 251) (5 : Fin 251) (2 : ZMod 11)
    (List.replicate 11 0) 7 (RseedT.BeforeZip212 4) (List.replicate 512 0)
    (List.length_replicate 11 0) (by norm_num)
    (List.length_replicate 512 0) (fun rs h => RseedT.noConfusion h) rfl
    rfl rfl
  exact ⟨h.1, h.2.1⟩

theorem parseNotePlaintext_take_52
    (M : SaplingModel Scalar Point PointU FrT Key) (P : ConsensusParams)
    (height : ℕ) (ivk : Scalar) (epk : Point) (cmu : FrT) (pt : List ℕ) :
    parseNotePlaintextWithoutMemo M P height ivk epk cmu (pt.take 52) =
    parseNotePlaintextWithoutMemo M P height ivk epk cmu pt := by
  have hg : (pt.take 52).getD 0 0 = pt.getD 0 0 := by
    cases pt with
    | nil => rfl
    | cons a l => rfl
  have h1 : ((pt.take 52).drop 1).take 11 = (pt.drop 1).take 11 := by
    rw [List.drop_take, List.take_take]
    norm_num
  have h2 : readU64LE ((pt.take 52).drop 12) = readU64LE (pt.drop 12) := by
    rw [List.drop_take]
    simp only [readU64LE, List.take_take]
    norm_num
  have h3 : ((pt.take 52).drop 20).take 32 = (pt.drop 20).take 32 := by
    rw [List.drop_take, List.take_take]
    norm_num
  simp only [parseNotePlaintextWithoutMemo, hg, h1, h2, h3]

/-- C5: compact equivalence.  Whenever the full 580-byte decryption
succeeds, compact decryption applied to the first 52 ciphertext bytes
succeeds with the same note and payment address: raw ChaCha20 at block
counter 1 recovers exactly the first 52 plaintext bytes of the sealed
ciphertext. -/
theorem c5_compact_equivalence
    (M : SaplingModel Scalar Point PointU FrT Key) (P : ConsensusParams)
    (height : ℕ) (ivk : Scalar) (epk : Point) (cmu : FrT) (enc : List ℕ)
    (note : NoteT Scalar Point) (toA : PaymentAddressT Point)
    (memo : List ℕ)
    (hfull : trySaplingNoteDecryption M P height ivk epk cmu enc =
      some (note, toA, memo)) :
    trySaplingCompactNoteDecryption M P height ivk epk cmu
      (enc.take COMPACT_NOTE_SIZE) = some (note, toA) := by
  unfold trySaplingNoteDecryption at hfull
  by_cases hlen : enc.length = ENC_CIPHERTEXT_SIZE
  · rw [if_pos hlen] at hfull
    cases hopen : M.aeadOpen
        (M.kdfSapling (saplingKaAgree M ivk epk) epk) enc with
    | none =>
      simp only [hopen, Option.none_bind] at hfull
      exact Option.noConfusion hfull
    | some pt =>
      simp only [hopen, Option.some_bind] at hfull
      cases hparse : parseNotePlaintextWithoutMemo M P height ivk epk cmu
          pt with
      | none =>
        simp only [hparse, Option.none_bind] at hfull
        exact Option.noConfusion hfull
      | some nt =>
        simp only [hparse, Option.some_bind, Option.some.injEq,
          Prod.mk.injEq] at hfull
        obtain ⟨hn, ht, -⟩ := hfull
        have hseal : M.aeadSeal
            (M.kdfSapling (saplingKaAgree M ivk epk) epk) pt = enc :=
          M.aead_seal_of_open _ _ _ hopen
        have hptlen : pt.length + 16 = enc.length := by
          rw [← hseal, M.aead_seal_length]
        unfold trySaplingCompactNoteDecryption
        rw [show COMPACT_NOTE_SIZE = 52 from rfl]
        rw [if_pos (by
          rw [List.length_take, hlen, show ENC_CIPHERTEXT_SIZE = 580
            from rfl]
          norm_num)]
        have hcha : M.chachaXor1
            (M.kdfSapling (saplingKaAgree M ivk epk) epk) (enc.take 52) =
            pt.take 52 := by
          rw [← hseal]
          exact M.chachaXor1_seal_take _ _ _ (by
            rw [show ENC_CIPHERTEXT_SIZE = 580 from rfl] at hlen
            omega)
        simp only [hcha, parseNotePlaintext_take_52, hparse, hn, ht]
        rw [← hn, ← ht]
  · rw [if_neg hlen] at hfull
    cases hfull

/-- C5, witness: compact decryption of the first 52 bytes of the demo
ciphertext of the concrete round trip recovers the same note and
address. -/
theorem c5_compact_equivalence_witness :
    trySaplingCompactNoteDecryption demoModel demoParams 0 (3 : Fin 251)
      (SNE.new demoModel (List.replicate 32 0)
        ⟨7, 2, demoModel.smul 3 2, RseedT.BeforeZip212 4⟩
        ⟨List.replicate 11 0, demoModel.smul 3 2⟩ (List.replicate 512 0)
        5).epk
      (demoModel.cm ⟨7, 2, demoModel.smul 3 2, RseedT.BeforeZip212 4⟩)
      ((encryptNotePlaintext demoModel (SNE.new demoModel
        (List.replicate 32 0)
        ⟨7, 2, demoModel.smul 3 2, RseedT.BeforeZip212 4⟩
        ⟨List.replicate 11 0, demoModel.smul 3 2⟩ (List.replicate 512 0)
        5)).take COMPACT_NOTE_SIZE) =
    some (⟨7, 2, demoModel.smul 3 2, RseedT.BeforeZip212 4⟩,
      ⟨List.replicate 11 0, demoModel.smul 3 2⟩) :=
  c5_compact_equivalence demoModel demoParams 0 (3 : Fin 251) _ _ _ _ _ _
    (trySaplingNoteDecryption_roundtrip demoModel demoParams 0
      (List.replicate 32 0) (3 : Fin 251) (5 : Fin 251) (2 : ZMod 11)
      (List.replicate 11 0) 7 (RseedT.BeforeZip212 4)
      (List.replicate 512 0) (List.length_replicate 11 0) (by norm_num)
      (List.length_replicate 512 0) (fun rs h => RseedT.noConfusion h) rfl
      rfl rfl)

end PipelineProofs

/-! ## C7: the easy part of the final exponentiation -/

/-- C7: for every nonzero `f` in `Fq12` (an element of the unit group in
the model), the value `r` computed by `final_exponentiation` before the
hard part — `φ²(conj(f)·f⁻¹) · (conj(f)·f⁻¹)` — equals
`f^((p⁶−1)(p²+1))`, and the final exponentiation is exactly the hard part
applied to that value. -/
theorem c7_final_exponentiation_easy_part {G : Type} [CommGroup G]
    (p : ℕ) (hp : 1 ≤ p) (f : G) :
    easyPart p f f⁻¹ = f ^ ((p ^ 6 - 1) * (p ^ 2 + 1)) ∧
    finalExponentiationG p f =
      some ⟨hardPart p (f ^ ((p ^ 6 - 1) * (p ^ 2 + 1)))⟩ := by
  have h1 : f ^ p ^ 6 * f⁻¹ = f ^ (p ^ 6 - 1) := by
    have h6 : 1 ≤ p ^ 6 := Nat.one_le_pow _ _ hp
    nth_rewrite 1 [show p ^ 6 = (p ^ 6 - 1) + 1 from by omega]
    rw [pow_succ, mul_inv_cancel_right]
  have heasy : easyPart p f f⁻¹ = f ^ ((p ^ 6 - 1) * (p ^ 2 + 1)) := by
    simp only [easyPart, conjG, frobG, h1, ← pow_mul, ← pow_add]
    exact congrArg (fun k => f ^ k) (by ring)
  refine ⟨heasy, ?_⟩
  simp only [finalExponentiationG, invertG, Option.map_some', heasy]

/-- C7, witness: the easy-part identity applied in the unit group of the
integers modulo 5 with `p = 2`. -/
theorem c7_final_exponentiation_easy_part_witness :
    easyPart 2 (Multiplicative.ofAdd (1 : ZMod 5))
        (Multiplicative.ofAdd (1 : ZMod 5))⁻¹ =
      Multiplicative.ofAdd (1 : ZMod 5) ^ ((2 ^ 6 - 1) * (2 ^ 2 + 1)) :=
  (c7_final_exponentiation_easy_part 2 (by norm_num)
    (Multiplicative.ofAdd (1 : ZMod 5))).1

/-! ## C8: `Gt` scalar multiplication -/

theorem gtFold_pow {M : Type} [CommMonoid M] (g : M) (bs : List Bool)
    (x : M) (a : ℕ) (hx : x = g ^ a) :
    bs.foldl (fun acc bit => let acc := acc * acc;
      if bit then acc * g else acc) x = g ^ bitsVal a bs := by
  induction bs generalizing x a with
  | nil => simpa [bitsVal] using hx
  | cons b bs ih =>
    simp only [List.foldl_cons]
    cases b with
    | false =>
      refine (ih (x * x) (2 * a) ?_).trans ?_
      · rw [hx, ← pow_add, two_mul]
      · simp [bitsVal]
    | true =>
      refine (ih (x * x * g) (2 * a + 1) ?_).trans ?_
      · rw [hx, ← pow_add, ← pow_succ, two_mul]
      · simp [bitsVal]

theorem bitsVal_byteBitsMSB (a b : ℕ) (hb : b < 256) :
    bitsVal a (byteBitsMSB b) = 256 * a + b := by
  have hrange : (List.range 8).reverse = [7, 6, 5, 4, 3, 2, 1, 0] := by
    decide
  simp only [byteBitsMSB, bitsVal, hrange, List.map_cons, List.map_nil,
    List.foldl_cons, List.foldl_nil, Nat.toNat_testBit]
  omega

theorem bitsVal_append (a : ℕ) (l1 l2 : List Bool) :
    bitsVal a (l1 ++ l2) = bitsVal (bitsVal a l1) l2 := by
  simp [bitsVal, List.foldl_append]

theorem byteBitsMSB_length (b : ℕ) : (byteBitsMSB b).length = 8 := by
  simp [byteBitsMSB]

theorem bitsVal_flatten_leBytes (k : ℕ) : ∀ n a : ℕ,
    bitsVal a ((((leBytes k n).reverse).map byteBitsMSB).flatten) =
      a * 2 ^ (8 * k) + n % 2 ^ (8 * k) := by
  induction k with
  | zero => intro n a; simp [leBytes, bitsVal, Nat.mod_one]
  | succ k ih =>
    intro n a
    simp only [leBytes, List.reverse_cons, List.map_append, List.map_cons,
      List.map_nil, List.flatten_append, List.flatten_cons,
      List.flatten_nil, List.append_nil, bitsVal_append]
    rw [ih (n / 256) a,
      bitsVal_byteBitsMSB _ _ (Nat.mod_lt _ (by norm_num)),
      show 8 * (k + 1) = 8 * k + 8 from by ring, pow_add,
      show (2 : ℕ) ^ 8 = 256 from by norm_num,
      mul_comm ((2 : ℕ) ^ (8 * k)) 256, Nat.mod_mul]
    ring

theorem bitsVal_shift (bs : List Bool) : ∀ a : ℕ,
    bitsVal a bs = a * 2 ^ bs.length + bitsVal 0 bs := by
  induction bs with
  | nil => intro a; simp [bitsVal]
  | cons b bs ih =>
    intro a
    show bitsVal (2 * a + b.toNat) bs =
      a * 2 ^ (b :: bs).length + bitsVal 0 (b :: bs)
    rw [ih (2 * a + b.toNat)]
    have hc : bitsVal 0 (b :: bs) = b.toNat * 2 ^ bs.length + bitsVal 0 bs := by
      show bitsVal (2 * 0 + b.toNat) bs = _
      rw [ih (2 * 0 + b.toNat)]
      ring
    rw [hc, List.length_cons, pow_succ]
    ring

theorem bitsVal_lt (bs : List Bool) : bitsVal 0 bs < 2 ^ bs.length := by
  induction bs with
  | nil => simp [bitsVal]
  | cons b bs ih =>
    have h : bitsVal 0 (b :: bs) = bitsVal b.toNat bs := by simp [bitsVal]
    rw [h, bitsVal_shift, List.length_cons, pow_succ]
    have hb : b.toNat ≤ 1 := Bool.toNat_le b
    calc b.toNat * 2 ^ bs.length + bitsVal 0 bs
        < b.toNat * 2 ^ bs.length + 2 ^ bs.length := by omega
      _ ≤ 2 ^ bs.length * 2 := by
          have := Nat.mul_le_mul_right (2 ^ bs.length) hb
          omega

theorem flatten_map_byteBitsMSB_length (l : List ℕ) :
    ((l.map byteBitsMSB).flatten).length = 8 * l.length := by
  induction l with
  | nil => simp
  | cons b l ih =>
    simp [List.flatten_cons, byteBitsMSB_length, ih]
    ring

theorem bitsVal_frScalarBits (n : ℕ) (h : n < 2 ^ 255) :
    bitsVal 0 (frScalarBits n) = n := by
  have hfull : bitsVal 0
      ((((leBytes 32 n).reverse).map byteBitsMSB).flatten) = n := by
    rw [bitsVal_flatten_leBytes 32 n 0, Nat.zero_mul, Nat.zero_add]
    exact Nat.mod_eq_of_lt (lt_trans h (by norm_num))
  have hlen : ((((leBytes 32 n).reverse).map byteBitsMSB).flatten).length
      = 256 := by
    rw [flatten_map_byteBitsMSB_length, List.length_reverse,
      leBytes_length]
  cases hL : (((leBytes 32 n).reverse).map byteBitsMSB).flatten with
  | nil => rw [hL] at hlen; simp at hlen
  | cons b bs =>
    rw [hL] at hfull hlen
    have hbs : bs.length = 255 := by simpa using hlen
    have hcons : bitsVal 0 (b :: bs) = bitsVal b.toNat bs := by
      simp [bitsVal]
    rw [hcons, bitsVal_shift, hbs] at hfull
    have hfs : frScalarBits n = bs := by
      rw [frScalarBits, hL, List.drop_succ_cons, List.drop_zero]
    cases b with
    | false =>
      rw [show (false.toNat : ℕ) = 0 from rfl, Nat.zero_mul,
        Nat.zero_add] at hfull
      rw [hfs, hfull]
    | true =>
      exfalso
      rw [show (true.toNat : ℕ) = 1 from rfl, one_mul] at hfull
      have hle : (2 : ℕ) ^ 255 ≤ n := hfull ▸ Nat.le_add_right _ _
      exact absurd hle (not_le.mpr h)

/-- C8: `Gt` scalar multiplication.  For every `Gt` element `g` (over the
multiplicative `Fq12` semantics) and every `Fr` scalar of canonical
integer value `n`, the double-and-add loop over the 255 bits of the
32-byte little-endian `to_repr` (skipping the always-unset top bit) equals
`g ^ n`, the `n`-fold sum of `g` under `Gt` addition starting from the
identity. -/
theorem c8_gt_scalar_mul {M : Type} [CommMonoid M] (g : M) (n : ℕ)
    (h : n < rBLS) : gtMulFr g n = g ^ n := by
  have h255 : n < 2 ^ 255 := lt_trans h (by norm_num [rBLS])
  unfold gtMulFr
  rw [gtFold_pow g (frScalarBits n) 1 0 (pow_zero g).symm,
    bitsVal_frScalarBits n h255]

/-- C8, witness: the scalar-multiplication theorem applied to the class of
1 in the multiplicative group of the integers modulo 7 and the scalar
5. -/
theorem c8_gt_scalar_mul_witness :
    gtMulFr (Multiplicative.ofAdd (1 : ZMod 7)) 5 =
      Multiplicative.ofAdd (1 : ZMod 7) ^ 5 :=
  c8_gt_scalar_mul (Multiplicative.ofAdd (1 : ZMod 7)) 5 (by norm_num [rBLS])

/-! ## C9: pairing on identity inputs -/

theorem millerFold_one {Fq G : Type} [CommGroup G] (p : ℕ)
    (sp : Fq2T Fq → Fq2T Fq → Fq2T Fq → G) (fqmul : Fq → Fq → Fq)
    (bs : List Bool) : ∀ found : Bool,
    ∃ fo, bs.foldl (millerStep (groupFq12Ops p sp fqmul))
      (some (found, (1 : G), ([] : List (G1AffT Fq × List (CoeffT Fq))))) =
      some (fo, (1 : G), []) := by
  induction bs with
  | nil => intro found; exact ⟨found, rfl⟩
  | cons b bs ih =>
    intro found
    rw [List.foldl_cons]
    cases found with
    | false =>
      have hstep : millerStep (groupFq12Ops p sp fqmul)
          (some (false, (1 : G), ([] : List (G1AffT Fq × List (CoeffT Fq)))))
          b = some (b, (1 : G), []) := rfl
      rw [hstep]
      exact ih b
    | true =>
      have hstep : millerStep (groupFq12Ops p sp fqmul)
          (some (true, (1 : G), ([] : List (G1AffT Fq × List (CoeffT Fq)))))
          b = some (true, (1 : G) * 1, []) := by
        simp [millerStep, consumeStep, groupFq12Ops]
      rw [hstep, mul_one]
      exact ih true

theorem multiMillerLoop_identity {Fq G : Type} [CommGroup G] (p : ℕ)
    (sp : Fq2T Fq → Fq2T Fq → Fq2T Fq → G) (fqmul : Fq → Fq → Fq)
    (P : G1AffT Fq) (Q : G2PreparedT Fq)
    (h : P.infinity = true ∨ Q.infinity = true) :
    multiMillerLoop (groupFq12Ops p sp fqmul) [(P, Q)] =
      some ((1 : G), []) := by
  unfold multiMillerLoop
  have hfilter : ([(P, Q)].filter fun t => !t.1.infinity && !t.2.infinity)
      = [] := by
    rcases h with h | h <;> simp [List.filter_cons, h]
  have hone : (groupFq12Ops p sp fqmul : Fq12Ops Fq G).one = 1 := rfl
  simp only [hfilter, List.map_nil, hone]
  obtain ⟨fo, hfold⟩ := millerFold_one p sp fqmul blsXHalfBits false
  rw [hfold]
  simp [consumeStep, groupFq12Ops, conjG, one_pow]

theorem finalExponentiationG_one {G : Type} [CommGroup G] (p : ℕ) :
    finalExponentiationG p (1 : G) = some ⟨1⟩ := by
  simp [finalExponentiationG, invertG, easyPart, hardPart, expByX, conjG,
    frobG, one_pow, inv_one, mul_one]

theorem g2PreparedFromAffine_infinity {Fq : Type} (O : Fq2Ops Fq)
    (q : G2AffT Fq) :
    (g2PreparedFromAffine O q).infinity = q.infinity := by
  unfold g2PreparedFromAffine
  cases hq : q.infinity <;> simp [hq]

/-- C9: pairing on identity inputs.  If `P` or `Q` is the identity, the
term is discarded (the prepared point carries the identity flag of `Q`),
the multi-Miller loop returns `Fq12::one` with no coefficients consumed,
the final exponentiation maps one to the `Gt` identity, and
`Bls12::pairing(P, Q)` is the `Gt` identity. -/
theorem c9_pairing_identity {Fq G : Type} [CommGroup G] (p : ℕ)
    (sp : Fq2T Fq → Fq2T Fq → Fq2T Fq → G) (fqmul : Fq → Fq → Fq)
    (O : Fq2Ops Fq) (P : G1AffT Fq) (Q : G2AffT Fq)
    (h : P.infinity = true ∨ Q.infinity = true) :
    pairingBls p sp fqmul O P Q = some (gtIdentity : GtT G) ∧
    multiMillerLoop (groupFq12Ops p sp fqmul)
      [(P, g2PreparedFromAffine O Q)] = some ((1 : G), []) ∧
    finalExponentiationG p (1 : G) = some (gtIdentity : GtT G) := by
  have hprep : P.infinity = true ∨
      (g2PreparedFromAffine O Q).infinity = true := by
    rcases h with h | h
    · exact Or.inl h
    · exact Or.inr (by rw [g2PreparedFromAffine_infinity, h])
  have hmml := multiMillerLoop_identity p sp fqmul P
    (g2PreparedFromAffine O Q) hprep
  refine ⟨?_, hmml, finalExponentiationG_one p⟩
  unfold pairingBls
  rw [hmml]
  simp only [Option.some_bind]
  exact finalExponentiationG_one p

/-- C9, witness: the identity-pairing theorem applied at a concrete
identity `P` over a small commutative group. -/
theorem c9_pairing_identity_witness :
    pairingBls 2 (fun _ _ _ => (1 : Multiplicative (ZMod 3)))
        (fun a _ => (a : ℕ))
        ⟨fun a _ => a, fun a _ => a, fun a _ => a, id, id, id, ⟨0, 0⟩⟩
        ⟨0, 0, true⟩ ⟨⟨0, 0⟩, ⟨0, 0⟩, false⟩ =
      some (gtIdentity : GtT (Multiplicative (ZMod 3))) :=
  (c9_pairing_identity 2 (fun _ _ _ => (1 : Multiplicative (ZMod 3)))
    (fun a _ => (a : ℕ))
    ⟨fun a _ => a, fun a _ => a, fun a _ => a, id, id, id, ⟨0, 0⟩⟩
    ⟨0, 0, true⟩ ⟨⟨0, 0⟩, ⟨0, 0⟩, false⟩ (Or.inl rfl)).1

/-! ## C6: coefficient bookkeeping -/

theorem fromAffineFold_length {Fq : Type} (O : Fq2Ops Fq) (q : G2AffT Fq)
    (bs : List Bool) : ∀ (found : Bool) (cs : List (CoeffT Fq))
    (r : G2ProjT Fq),
    ((bs.foldl (fromAffineStep O q) (found, cs, r)).2.1).length =
      cs.length + millerBitSteps found bs := by
  induction bs with
  | nil => intro found cs r; simp [millerBitSteps]
  | cons b bs ih =>
    intro found cs r
    rw [List.foldl_cons]
    cases found with
    | false =>
      have hstep : fromAffineStep O q (false, cs, r) b = (b, cs, r) := rfl
      rw [hstep, ih b cs r]
      rfl
    | true =>
      cases b with
      | false =>
        have hstep : fromAffineStep O q (true, cs, r) false =
            (true, cs ++ [(doublingStep O r).2], (doublingStep O r).1) := by
          simp [fromAffineStep]
        rw [hstep, ih true _ _, List.length_append]
        show cs.length + 1 + millerBitSteps true bs =
          cs.length + ((1 : ℕ) + millerBitSteps true bs)
        omega
      | true =>
        have hstep : fromAffineStep O q (true, cs, r) true =
            (true, cs ++ [(doublingStep O r).2,
              (additionStep O (doublingStep O r).1 q).2],
              (additionStep O (doublingStep O r).1 q).1) := by
          simp [fromAffineStep]
        rw [hstep, ih true _ _, List.length_append]
        show cs.length + 2 + millerBitSteps true bs =
          cs.length + ((2 : ℕ) + millerBitSteps true bs)
        omega

theorem millerBitSteps_blsXHalfBits : millerBitSteps false blsXHalfBits = 67
    := by decide

theorem g2PreparedFromAffine_length {Fq : Type} (O : Fq2Ops Fq)
    (q : G2AffT Fq) (hq : q.infinity = false) :
    (g2PreparedFromAffine O q).coeffs.length = 68 := by
  unfold g2PreparedFromAffine
  rw [hq]
  simp only [Bool.false_eq_true, if_false, List.length_append,
    List.length_cons, List.length_nil]
  rw [fromAffineFold_length O q blsXHalfBits false [] _,
    millerBitSteps_blsXHalfBits]
  simp

theorem consumeStep_length {Fq G : Type} (X : Fq12Ops Fq G) (k : ℕ) :
    ∀ (prs : List (G1AffT Fq × List (CoeffT Fq))) (f : G),
    (∀ pr ∈ prs, pr.2.length = k + 1) →
    ∃ f2 prs2, consumeStep X f prs = some (f2, prs2) ∧
      ∀ pr ∈ prs2, pr.2.length = k := by
  intro prs
  induction prs with
  | nil => intro f _; exact ⟨f, [], rfl, by simp⟩
  | cons pr rest ih =>
    intro f h
    obtain ⟨p, cs⟩ := pr
    have hlen := h (p, cs) (List.mem_cons_self _ _)
    cases cs with
    | nil => simp at hlen
    | cons c cs =>
      obtain ⟨f2, prs2, hcons, hlen2⟩ := ih (ell X f c p)
        (fun pr hm => h pr (List.mem_cons_of_mem _ hm))
      refine ⟨f2, (p, cs) :: prs2, ?_, ?_⟩
      · simp [consumeStep, hcons]
      · intro pr hm
        rcases List.mem_cons.mp hm with hm | hm
        · subst hm
          simp only [List.length_cons] at hlen
          show cs.length = k
          omega
        · exact hlen2 pr hm

theorem millerFold_length {Fq G : Type} (X : Fq12Ops Fq G)
    (bs : List Bool) : ∀ (found : Bool) (f : G)
    (prs : List (G1AffT Fq × List (CoeffT Fq))),
    (∀ pr ∈ prs, pr.2.length = millerBitSteps found bs + 1) →
    ∃ fo f2 prs2,
      bs.foldl (millerStep X) (some (found, f, prs)) =
        some (fo, f2, prs2) ∧ ∀ pr ∈ prs2, pr.2.length = 1 := by
  induction bs with
  | nil =>
    intro found f prs h
    exact ⟨found, f, prs, rfl, fun pr hm => by
      have := h pr hm
      simpa [millerBitSteps] using this⟩
  | cons b bs ih =>
    intro found f prs h
    rw [List.foldl_cons]
    cases found with
    | false =>
      have hstep : millerStep X (some (false, f, prs)) b =
          some (b, f, prs) := rfl
      rw [hstep]
      exact ih b f prs (by
        intro pr hm
        have := h pr hm
        rwa [show millerBitSteps false (b :: bs) = millerBitSteps b bs
          from rfl] at this)
    | true =>
      cases b with
      | false =>
        obtain ⟨f2, prs2, hcons, hlen2⟩ :=
          consumeStep_length X (millerBitSteps true bs + 1) prs f (by
            intro pr hm
            have := h pr hm
            rw [show millerBitSteps true (false :: bs) =
              1 + millerBitSteps true bs from rfl] at this
            omega)
        have hstep : millerStep X (some (true, f, prs)) false =
            some (true, X.square f2, prs2) := by
          simp [millerStep, hcons]
        rw [hstep]
        exact ih true (X.square f2) prs2 hlen2
      | true =>
        obtain ⟨f2, prs2, hcons, hlen2⟩ :=
          consumeStep_length X (millerBitSteps true bs + 2) prs f (by
            intro pr hm
            have := h pr hm
            rw [show millerBitSteps true (true :: bs) =
              2 + millerBitSteps true bs from rfl] at this
            omega)
        obtain ⟨f3, prs3, hcons2, hlen3⟩ :=
          consumeStep_length X (millerBitSteps true bs + 1) prs2 f2 (by
            intro pr hm
            have := hlen2 pr hm
            omega)
        have hstep : millerStep X (some (true, f, prs)) true =
            some (true, X.square f3, prs3) := by
          simp [millerStep, hcons, hcons2]
        rw [hstep]
        exact ih true (X.square f3) prs3 hlen3

/-- C6: coefficient bookkeeping.  For every non-identity affine `Q`,
`G2Prepared::from_affine(Q).coeffs` holds exactly 68 coefficient triples,
and when `multi_miller_loop` runs on terms prepared by `from_affine`,
every `coeffs.next().unwrap()` succeeds (the loop returns `some`) and
every retained per-term iterator is exhausted at the end. -/
theorem c6_coefficient_bookkeeping {Fq G : Type} (O : Fq2Ops Fq)
    (X : Fq12Ops Fq G) (q : G2AffT Fq) (hq : q.infinity = false)
    (terms : List (G1AffT Fq × G2AffT Fq)) :
    (g2PreparedFromAffine O q).coeffs.length = 68 ∧
    ∃ f prs, multiMillerLoop X
        (terms.map fun t => (t.1, g2PreparedFromAffine O t.2)) =
        some (f, prs) ∧
      ∀ pr ∈ prs, pr.2 = ([] : List (CoeffT Fq)) := by
  refine ⟨g2PreparedFromAffine_length O q hq, ?_⟩
  unfold multiMillerLoop
  have hall : ∀ pr ∈ ((terms.map fun t =>
      (t.1, g2PreparedFromAffine O t.2)).filter fun t =>
        !t.1.infinity && !t.2.infinity).map fun t => (t.1, t.2.coeffs),
      pr.2.length = millerBitSteps false blsXHalfBits + 1 := by
    intro pr hm
    rw [millerBitSteps_blsXHalfBits]
    obtain ⟨t, hmem, rfl⟩ := List.mem_map.mp hm
    obtain ⟨hmem2, hcond⟩ := List.mem_filter.mp hmem
    obtain ⟨t0, -, rfl⟩ := List.mem_map.mp hmem2
    simp only [Bool.and_eq_true, Bool.not_eq_eq_eq_not,
      Bool.not_true] at hcond
    have hinf : t0.2.infinity = false := by
      have := hcond.2
      rwa [g2PreparedFromAffine_infinity] at this
    exact g2PreparedFromAffine_length O t0.2 hinf
  obtain ⟨fo, f2, prs2, hfold, hlen2⟩ := millerFold_length X blsXHalfBits
    false X.one _ hall
  obtain ⟨f3, prs3, hcons, hlen3⟩ := consumeStep_length X 0 prs2 f2 (by
    intro pr hm
    have := hlen2 pr hm
    omega)
  refine ⟨X.conjugate f3, prs3, ?_, ?_⟩
  · simp only [hfold, Option.some_bind, hcons]
  · intro pr hm
    exact List.length_eq_zero.mp (hlen3 pr hm)

/-- C6, witness: the bookkeeping theorem applied to a concrete
non-identity point and a singleton term list over trivial carriers. -/
theorem c6_coefficient_bookkeeping_witness :
    (g2PreparedFromAffine
      (⟨fun a _ => a, fun a _ => a, fun a _ => a, id, id, id, ⟨0, 0⟩⟩ :
        Fq2Ops ℕ) ⟨⟨0, 0⟩, ⟨0, 0⟩, false⟩).coeffs.length = 68 ∧
    ∃ f prs, multiMillerLoop
        (⟨1, id, id, fun f _ _ _ => f, fun a _ => a⟩ : Fq12Ops ℕ ℕ)
        ([(⟨0, 0, false⟩, ⟨⟨0, 0⟩, ⟨0, 0⟩, false⟩)].map fun t =>
          (t.1, g2PreparedFromAffine
            (⟨fun a _ => a, fun a _ => a, fun a _ => a, id, id, id,
              ⟨0, 0⟩⟩ : Fq2Ops ℕ) t.2)) = some (f, prs) ∧
      ∀ pr ∈ prs, pr.2 = ([] : List (CoeffT ℕ)) :=
  c6_coefficient_bookkeeping
    (⟨fun a _ => a, fun a _ => a, fun a _ => a, id, id, id, ⟨0, 0⟩⟩ :
      Fq2Ops ℕ)
    (⟨1, id, id, fun f _ _ _ => f, fun a _ => a⟩ : Fq12Ops ℕ ℕ)
    ⟨⟨0, 0⟩, ⟨0, 0⟩, false⟩ rfl
    [(⟨0, 0, false⟩, ⟨⟨0, 0⟩, ⟨0, 0⟩, false⟩)]

end Spec2Proof
